import Mathlib

set_option maxHeartbeats 1600000

/- Verification of the campus subway-map core: the breadth-first route search
`findRoute` and the line-classification loop of `displayRoute` from
src/subway/src/App.jsx (the identical `findRoute` also appears in
src/unnamed/part_000).  Node identifiers are natural numbers, display names
are strings. -/

/-- A node record from nodes.json: identifier, display name and the stored
(directed) list of neighbour identifiers.  The position field is presentation
payload never consulted by the algorithms, so it is omitted. -/
structure Node where
  id : Nat
  name : String
  edges : List Nat
deriving DecidableEq

/-- JavaScript `nodes.find(node => node.id === currentNodeId)`: the first node
(in array order) whose id equals `i`, or `undefined` (here `none`). -/
def jsFind (nodes : List Node) (i : Nat) : Option Node :=
  nodes.find? (fun node => node.id == i)

/-- The neighbour list the search follows from id `a`: the edges of the first
node whose id is `a`, and `[]` when no such node exists. -/
def edgesOf (nodes : List Node) (a : Nat) : List Nat :=
  ((jsFind nodes a).map Node.edges).getD []

/-- All identifiers occurring in any stored edge list. -/
def allIds (nodes : List Node) : List Nat :=
  nodes.flatMap Node.edges

/-- The body of `currentNode.edges.forEach(edgeId => ...)`: for each edge id in
stored order, if it is not in the visited set, add it to the visited set and
push `[edgeId, [...path, edgeId]]` onto the back of the queue.  The JS
`Set` is modelled as a list used only through membership, so `visited.add` is
a cons. -/
def enqueueEdges (path : List Nat) : List Nat → List (Nat × List Nat) → List Nat →
    List (Nat × List Nat) × List Nat
  | [], queue, visited => (queue, visited)
  | edgeId :: es, queue, visited =>
    if edgeId ∈ visited then enqueueEdges path es queue visited
    else enqueueEdges path es (queue ++ [(edgeId, path ++ [edgeId])]) (edgeId :: visited)

/-- Fuel-indexed unfolding of the `while (queue.length > 0)` loop of
`findRoute`.  Outer `none` means the fuel ran out (this never happens at fuel
`fuelBound nodes`, see `bfsRun_sufficient`); `some none` models the TypeError
thrown by `currentNode.edges` when `nodes.find` returned `undefined` (the
source evaluates `nodes.find` before the end-of-search test, but the member
access that throws sits after it, so testing first is behaviourally
identical); `some (some path)` models `return path`, and the loop running out
of queue gives `some (some [])`, modelling `return []` (no path found). -/
def bfsRun (nodes : List Node) (endId : Nat) :
    Nat → List (Nat × List Nat) → List Nat → Option (Option (List Nat))
  | 0, _, _ => none
  | _ + 1, [], _ => some (some [])
  | fuel + 1, (currentNodeId, path) :: rest, visited =>
    if currentNodeId = endId then some (some path)
    else
      match jsFind nodes currentNodeId with
      | none => some none
      | some currentNode =>
        let qv := enqueueEdges path currentNode.edges rest visited
        bfsRun nodes endId fuel qv.1 qv.2

/-- Fuel that always suffices for `bfsRun` (proved in `bfsRun_sufficient`):
each loop iteration either ends the search or moves at least one fresh edge
identifier into the visited set, so the queue drains after at most
`(allIds nodes).toFinset.card + 1` iterations. -/
def fuelBound (nodes : List Node) : Nat :=
  (allIds nodes).toFinset.card + 2

/-- `findRoute` of App.jsx for a given node list, start id and end id.  The
source's first line `if (!startNode || !endNode) return []` tests JavaScript
truthiness of the two selected ids: it fires when no node has been selected
(`null`) and equally when a selected numeric id is the falsy number `0`.
With `Nat` identifiers this is `startId = 0 ∨ endId = 0`, returning the
empty result before any search runs.  Otherwise the body starts with
`queue = [[startNode, [startNode]]]` and an empty visited set; `none` models
an uncaught TypeError, `some []` a `return []` (no route), and `some p` a
returned path. -/
def findRoute (nodes : List Node) (startId endId : Nat) : Option (List Nat) :=
  if startId = 0 ∨ endId = 0 then some []
  else (bfsRun nodes endId (fuelBound nodes) [(startId, [startId])] []).join

/-- `ReachN nodes s n x`: node id `x` is reachable from `s` in exactly `n`
steps along stored edges, in the direction they are stored, with neighbour
lookup exactly as the algorithm performs it (`edgesOf`). -/
inductive ReachN (nodes : List Node) (s : Nat) : Nat → Nat → Prop
  | zero : ReachN nodes s 0 s
  | succ {n a b : Nat} : ReachN nodes s n a → b ∈ edgesOf nodes a →
      ReachN nodes s (n + 1) b

/-- A graph is closed when every identifier referenced in an edge list has a
node: the data-model invariant of §3 of the specification. -/
def closedGraph (nodes : List Node) : Prop :=
  ∀ x ∈ allIds nodes, (jsFind nodes x).isSome = true

instance (nodes : List Node) : Decidable (closedGraph nodes) := by
  unfold closedGraph
  infer_instance

/-- `b` is a stored edge target of `a`: some node record with id `a` lists `b`. -/
def storedEdge (nodes : List Node) (a b : Nat) : Prop :=
  ∃ node ∈ nodes, node.id = a ∧ b ∈ node.edges

instance (nodes : List Node) (a b : Nat) : Decidable (storedEdge nodes a b) := by
  unfold storedEdge
  infer_instance

/- ---------------------------------------------------------------------
Line classification (`displayRoute` of src/subway/src/App.jsx).
--------------------------------------------------------------------- -/

/-- The `blueConnections` set literal of App.jsx. -/
def blueConnections : List String :=
  ["Lane-Summit", "Summit-East Hudson", "East Hudson-Old North",
   "Old North-Patterson", "Patterson-Lane"]

/-- The `orangeConnections` set literal of App.jsx. -/
def orangeConnections : List String :=
  ["Lane-Schottenstein", "Schottenstein-West Campus",
   "West Campus-Medical Center", "Medical Center-RPAC"]

/-- The `yellowConnections` set literal of App.jsx. -/
def yellowConnections : List String :=
  ["RPAC-South Dorms", "South Dorms-South Neil",
   "South Neil-King Ave", "King Ave-11th Ave",
   "11th Ave-The Union"]

/-- The `newLineColor` computation of one loop iteration of `displayRoute`:
default `'green'`, overridden by the first of blue/orange/yellow whose
connection set contains `currentNode-nextNode` in either orientation. -/
def newLineColor (currentNode nextNode : String) : String :=
  if (currentNode ++ "-" ++ nextNode) ∈ blueConnections ∨
      (nextNode ++ "-" ++ currentNode) ∈ blueConnections then "blue"
  else if (currentNode ++ "-" ++ nextNode) ∈ orangeConnections ∨
      (nextNode ++ "-" ++ currentNode) ∈ orangeConnections then "orange"
  else if (currentNode ++ "-" ++ nextNode) ∈ yellowConnections ∨
      (nextNode ++ "-" ++ currentNode) ∈ yellowConnections then "yellow"
  else "green"

/-- One evaluated segment of the classification loop of `displayRoute`:
the consecutive name pair, the line colour assigned to it, and whether the
transfer branch (`newLineColor !== currentLineColor && currentLineColor !== ''`)
fired on entering it. -/
structure Segment where
  fromNode : String
  toNode : String
  line : String
  isTransfer : Bool
deriving DecidableEq

/-- The classification loop of `displayRoute`
(`for (let i = 0; i < pathNames.length - 2; i++)`), carrying the
`currentLineColor` cursor.  The source loop evaluates the pair
`(pathNames[i], pathNames[i+1])` while `i < pathNames.length - 2`, which is
exactly: process the front two names while at least three names remain. -/
def classifyAux (currentLineColor : String) : List String → List Segment
  | a :: b :: c :: rest =>
    { fromNode := a, toNode := b, line := newLineColor a b,
      isTransfer := newLineColor a b != currentLineColor && currentLineColor != "" } ::
    classifyAux (newLineColor a b) (b :: c :: rest)
  | _ => []

/-- The route-classification part of `displayRoute`: the sequence of segments
its loop evaluates, with the `currentLineColor` cursor initialised to `''`. -/
def classifySegments (pathNames : List String) : List Segment :=
  classifyAux "" pathNames

/-- The full text assembled by `displayRoute` after the `Route Plan` header,
given the resolved name list: `Start:` line, then per evaluated segment an
optional transfer line and the next node name, then the `End:` line.  Kept
as a faithful rendering of the same loop so the segment view above can be
checked against it. -/
def displayRouteAux (currentLineColor : String) : List String → String
  | a :: b :: c :: rest =>
    (if newLineColor a b != currentLineColor && currentLineColor != "" then
      "Transfer onto " ++ newLineColor a b ++ " line<br>" else "") ++
    b ++ "<br>" ++ displayRouteAux (newLineColor a b) (b :: c :: rest)
  | _ => ""

/-- `displayRoute` body on a non-empty resolved name list. -/
def displayRouteFromNames (pathNames : List String) : String :=
  "Start: " ++ pathNames.headD "" ++ "<br>" ++ displayRouteAux "" pathNames ++
  "End: " ++ (pathNames.getLastD "")

example : findRoute [⟨1, "A", [2]⟩, ⟨2, "B", []⟩] 1 2 = some [1, 2] := by decide

example : findRoute [⟨1, "A", [2]⟩, ⟨2, "B", []⟩] 1 3 = some [] := by decide

example : findRoute [⟨1, "A", [2]⟩] 1 3 = none := by decide

example : classifySegments ["Lane", "Summit", "East Hudson"] =
    [⟨"Lane", "Summit", "blue", false⟩] := by decide

/- ---------------------------------------------------------------------
Characterisation of one `forEach` pass of the loop body.
--------------------------------------------------------------------- -/

/-- The edge ids one `forEach` pass finds unvisited, in discovery order. -/
def freshIds : List Nat → List Nat → List Nat
  | [], _ => []
  | e :: es, visited =>
    if e ∈ visited then freshIds es visited else e :: freshIds es (e :: visited)

/-- The visited set after one `forEach` pass. -/
def visAfter : List Nat → List Nat → List Nat
  | [], visited => visited
  | e :: es, visited =>
    if e ∈ visited then visAfter es visited else visAfter es (e :: visited)

theorem enqueueEdges_eq (path : List Nat) :
    ∀ (es : List Nat) (queue : List (Nat × List Nat)) (visited : List Nat),
    enqueueEdges path es queue visited =
      (queue ++ (freshIds es visited).map (fun b => (b, path ++ [b])),
       visAfter es visited)
  | [], queue, visited => by simp [enqueueEdges, freshIds, visAfter]
  | e :: es, queue, visited => by
    by_cases h : e ∈ visited
    · simp [enqueueEdges, freshIds, visAfter, h, enqueueEdges_eq path es]
    · simp [enqueueEdges, freshIds, visAfter, h, enqueueEdges_eq path es]

theorem mem_visAfter :
    ∀ (es visited : List Nat) (x : Nat),
    x ∈ visAfter es visited ↔ x ∈ freshIds es visited ∨ x ∈ visited
  | [], visited, x => by simp [visAfter, freshIds]
  | e :: es, visited, x => by
    by_cases h : e ∈ visited
    · simp only [visAfter, freshIds, if_pos h]
      exact mem_visAfter es visited x
    · simp only [visAfter, freshIds, if_neg h]
      rw [mem_visAfter es (e :: visited) x]
      simp only [List.mem_cons]
      tauto

theorem freshIds_subset :
    ∀ (es visited : List Nat), ∀ x ∈ freshIds es visited, x ∈ es
  | [], visited => by simp [freshIds]
  | e :: es, visited => by
    by_cases h : e ∈ visited
    · simp only [freshIds, if_pos h]
      intro x hx
      exact List.mem_cons_of_mem _ (freshIds_subset es visited x hx)
    · simp only [freshIds, if_neg h]
      intro x hx
      rcases List.mem_cons.mp hx with hx | hx
      · exact hx ▸ List.mem_cons_self _ _
      · exact List.mem_cons_of_mem _ (freshIds_subset es (e :: visited) x hx)

theorem freshIds_not_visited :
    ∀ (es visited : List Nat), ∀ x ∈ freshIds es visited, x ∉ visited
  | [], visited => by simp [freshIds]
  | e :: es, visited => by
    by_cases h : e ∈ visited
    · simp only [freshIds, if_pos h]
      exact freshIds_not_visited es visited
    · simp only [freshIds, if_neg h]
      intro x hx
      rcases List.mem_cons.mp hx with hx | hx
      · exact hx ▸ h
      · intro hv
        exact freshIds_not_visited es (e :: visited) x hx (List.mem_cons_of_mem _ hv)

theorem freshIds_nodup : ∀ (es visited : List Nat), (freshIds es visited).Nodup
  | [], visited => by simp [freshIds]
  | e :: es, visited => by
    by_cases h : e ∈ visited
    · simp only [freshIds, if_pos h]
      exact freshIds_nodup es visited
    · simp only [freshIds, if_neg h]
      refine List.nodup_cons.mpr ⟨?_, freshIds_nodup es (e :: visited)⟩
      intro hmem
      exact freshIds_not_visited es (e :: visited) e hmem (List.mem_cons_self _ _)

theorem freshIds_nil_of_subset :
    ∀ (es visited : List Nat), (∀ x ∈ es, x ∈ visited) →
    freshIds es visited = [] ∧ visAfter es visited = visited
  | [], visited, _ => ⟨rfl, rfl⟩
  | e :: es, visited, h => by
    have he : e ∈ visited := h e (List.mem_cons_self _ _)
    simp only [freshIds, visAfter, if_pos he]
    exact freshIds_nil_of_subset es visited (fun x hx => h x (List.mem_cons_of_mem _ hx))

theorem mem_visAfter_of_mem :
    ∀ (es visited : List Nat), ∀ x ∈ es, x ∈ visAfter es visited := by
  intro es
  induction es with
  | nil => intro visited x hx; cases hx
  | cons e es ih =>
    intro visited x hx
    by_cases hev : e ∈ visited
    · simp only [visAfter, if_pos hev]
      rcases List.mem_cons.mp hx with rfl | hx'
      · exact (mem_visAfter es visited x).mpr (Or.inr hev)
      · exact ih visited x hx'
    · simp only [visAfter, if_neg hev]
      rcases List.mem_cons.mp hx with rfl | hx'
      · exact (mem_visAfter es (x :: visited) x).mpr (Or.inr (List.mem_cons_self _ _))
      · exact ih (e :: visited) x hx'

/- ---------------------------------------------------------------------
Termination: a counting measure on the visited set.
--------------------------------------------------------------------- -/

/-- Number of edge identifiers not yet visited. -/
def cntUnvisited (nodes : List Node) (visited : List Nat) : Nat :=
  ((allIds nodes).toFinset \ visited.toFinset).card

theorem cnt_insert (nodes : List Node) (v : List Nat) (x : Nat)
    (hx : x ∈ allIds nodes) (hxv : x ∉ v) :
    cntUnvisited nodes (x :: v) + 1 = cntUnvisited nodes v := by
  unfold cntUnvisited
  have hmem : x ∈ (allIds nodes).toFinset \ v.toFinset := by
    simp [List.mem_toFinset, hx, hxv]
  rw [List.toFinset_cons, Finset.sdiff_insert, Finset.card_erase_of_mem hmem]
  have hpos : 0 < ((allIds nodes).toFinset \ v.toFinset).card :=
    Finset.card_pos.mpr ⟨x, hmem⟩
  omega

theorem cnt_visAfter (nodes : List Node) :
    ∀ (es visited : List Nat), (∀ x ∈ es, x ∈ allIds nodes) →
    cntUnvisited nodes (visAfter es visited) + (freshIds es visited).length =
    cntUnvisited nodes visited := by
  intro es
  induction es with
  | nil => intro visited _; simp [visAfter, freshIds]
  | cons e es ih =>
    intro visited hsub
    have hsub' : ∀ x ∈ es, x ∈ allIds nodes :=
      fun x hx => hsub x (List.mem_cons_of_mem _ hx)
    by_cases h : e ∈ visited
    · simp only [visAfter, freshIds, if_pos h]
      exact ih visited hsub'
    · simp only [visAfter, freshIds, if_neg h, List.length_cons]
      have h1 := ih (e :: visited) hsub'
      have h2 : cntUnvisited nodes (e :: visited) + 1 = cntUnvisited nodes visited :=
        cnt_insert nodes visited e (hsub e (List.mem_cons_self _ _)) h
      omega

theorem edges_subset_allIds {nodes : List Node} {node : Node} (hmem : node ∈ nodes) :
    ∀ x ∈ node.edges, x ∈ allIds nodes := by
  intro x hx
  exact List.mem_flatMap.mpr ⟨node, hmem, hx⟩

theorem jsFind_mem {nodes : List Node} {i : Nat} {node : Node}
    (h : jsFind nodes i = some node) : node ∈ nodes :=
  List.mem_of_find?_eq_some h

theorem jsFind_id {nodes : List Node} {i : Nat} {node : Node}
    (h : jsFind nodes i = some node) : node.id = i := by
  have := List.find?_some h
  simpa using this

theorem bfsRun_sufficient (nodes : List Node) (endId : Nat) :
    ∀ (fuel : Nat) (queue : List (Nat × List Nat)) (visited : List Nat),
    queue.length + cntUnvisited nodes visited + 1 ≤ fuel →
    ∃ r, bfsRun nodes endId fuel queue visited = some r := by
  intro fuel
  induction fuel with
  | zero => intro queue visited h; omega
  | succ fuel ih =>
    intro queue visited h
    match queue with
    | [] => exact ⟨some [], rfl⟩
    | (c, p) :: rest =>
      by_cases hc : c = endId
      · exact ⟨some p, by simp [bfsRun, hc]⟩
      · cases hfind : jsFind nodes c with
        | none => exact ⟨none, by simp [bfsRun, hc, hfind]⟩
        | some node =>
          have hsub := edges_subset_allIds (jsFind_mem hfind)
          have hcnt := cnt_visAfter nodes node.edges visited hsub
          have hm : (rest ++ (freshIds node.edges visited).map
                (fun b => (b, p ++ [b]))).length +
              cntUnvisited nodes (visAfter node.edges visited) + 1 ≤ fuel := by
            simp only [List.length_append, List.length_map, List.length_cons] at h ⊢
            omega
          obtain ⟨r, hr⟩ := ih _ _ hm
          refine ⟨r, ?_⟩
          simp only [bfsRun, if_neg hc, hfind, enqueueEdges_eq]
          exact hr

theorem bfsRun_mono (nodes : List Node) (endId : Nat) :
    ∀ (f1 : Nat) (queue : List (Nat × List Nat)) (visited : List Nat)
      (r : Option (List Nat)) (f2 : Nat),
    bfsRun nodes endId f1 queue visited = some r → f1 ≤ f2 →
    bfsRun nodes endId f2 queue visited = some r := by
  intro f1
  induction f1 with
  | zero =>
    intro queue visited r f2 h _
    simp [bfsRun] at h
  | succ f1 ih =>
    intro queue visited r f2 h hle
    obtain ⟨g, rfl⟩ : ∃ g, f2 = g + 1 := ⟨f2 - 1, by omega⟩
    match queue with
    | [] =>
      simp only [bfsRun] at h ⊢
      exact h
    | (c, p) :: rest =>
      by_cases hc : c = endId
      · simp only [bfsRun, if_pos hc] at h ⊢
        exact h
      · cases hfind : jsFind nodes c with
        | none =>
          simp only [bfsRun, if_neg hc, hfind] at h ⊢
          exact h
        | some node =>
          simp only [bfsRun, if_neg hc, hfind] at h ⊢
          exact ih _ _ _ _ h (by omega)

theorem initial_measure (nodes : List Node) (s : Nat) :
    ([(s, [s])] : List (Nat × List Nat)).length + cntUnvisited nodes [] + 1 ≤
    fuelBound nodes := by
  simp only [cntUnvisited, fuelBound, List.toFinset_nil, Finset.sdiff_empty,
    List.length_cons, List.length_nil]
  omega

/-- C10: `findRoute` terminates on every finite node list whose edge lists
reference only existing node identifiers: there is a single result that the
fuel-indexed loop reaches at fuel `fuelBound nodes` and keeps at every larger
fuel, i.e. the `while` loop exits after boundedly many iterations.  (The loop
in fact terminates for every node list: the closed-graph hypothesis of the
claim is not needed for the bound.) -/
theorem findRoute_terminates (nodes : List Node) (s e : Nat)
    (hcl : closedGraph nodes) :
    ∃ r, ∀ fuel, fuelBound nodes ≤ fuel →
      bfsRun nodes e fuel [(s, [s])] [] = some r := by
  obtain ⟨r, hr⟩ :=
    bfsRun_sufficient nodes e (fuelBound nodes) [(s, [s])] [] (initial_measure nodes s)
  exact ⟨r, fun fuel hf => bfsRun_mono nodes e (fuelBound nodes) _ _ _ fuel hr hf⟩

theorem findRoute_terminates_witness :
    closedGraph [⟨1, "A", [2]⟩, ⟨2, "B", [1]⟩] ∧
    ∃ r, ∀ fuel, fuelBound [⟨1, "A", [2]⟩, ⟨2, "B", [1]⟩] ≤ fuel →
      bfsRun [⟨1, "A", [2]⟩, ⟨2, "B", [1]⟩] 2 fuel [(1, [1])] [] = some r :=
  ⟨by decide, findRoute_terminates [⟨1, "A", [2]⟩, ⟨2, "B", [1]⟩] 1 2 (by decide)⟩

theorem bfsRun_head_end {nodes : List Node} {endId : Nat} (fuel : Nat)
    (p : List Nat) (rest : List (Nat × List Nat)) (visited : List Nat) :
    bfsRun nodes endId (fuel + 1) ((endId, p) :: rest) visited = some (some p) := by
  simp [bfsRun]

theorem findRoute_self (nodes : List Node) (s : Nat) (h0 : s ≠ 0) :
    findRoute nodes s s = some [s] := by
  unfold findRoute fuelBound
  rw [if_neg (by simp [h0] : ¬ (s = 0 ∨ s = 0))]
  rw [show (allIds nodes).toFinset.card + 2 = ((allIds nodes).toFinset.card + 1) + 1
    from rfl]
  rw [bfsRun_head_end]
  rfl

/-- C7 counterexample: the identifier 0 is JS-falsy, so even when a node with
id 0 is present, `findRoute(G, 0, 0)` hits the `!startNode` guard and returns
the empty result, not the single-element path `[0]`. -/
theorem findRoute_self_zero_guard :
    (∃ node ∈ [⟨0, "A", [1]⟩, ⟨1, "B", [0]⟩], Node.id node = 0) ∧
    findRoute [⟨0, "A", [1]⟩, ⟨1, "B", [0]⟩] 0 0 = some [] ∧
    findRoute [⟨0, "A", [1]⟩, ⟨1, "B", [0]⟩] 0 0 ≠ some [0] :=
  ⟨by decide, by decide, by decide⟩

/-- C7 amended: for every graph and every JS-truthy (nonzero) node identifier
`s` present in it, `findRoute nodes s s` returns the single-element path
`[s]`: the very first dequeued pair is `(s, [s])` and its node equals the end
node.  (The end check fires before the node lookup, so presence of `s` is in
fact not needed.)  When `s` is the falsy identifier 0, the initial guard
returns the empty result instead. -/
theorem findRoute_start_eq_end (nodes : List Node) (s : Nat) (h0 : s ≠ 0)
    (hs : ∃ node ∈ nodes, node.id = s) :
    findRoute nodes s s = some [s] :=
  findRoute_self nodes s h0

theorem findRoute_start_eq_end_witness :
    (∃ node ∈ [⟨1, "A", [2]⟩, ⟨2, "B", [1]⟩], Node.id node = 1) ∧
    findRoute [⟨1, "A", [2]⟩, ⟨2, "B", [1]⟩] 1 1 = some [1] :=
  ⟨by decide,
   findRoute_start_eq_end [⟨1, "A", [2]⟩, ⟨2, "B", [1]⟩] 1 (by decide) (by decide)⟩

/-- C2 counterexample: on the graph with the single node 1 (no edges), calling
`findRoute` with the unknown start identifier 2 and end identifier 1 throws a
TypeError (`nodes.find` yields `undefined` and `currentNode.edges` is then
accessed), modelled as `none` — it does not return the empty result the claim
requires. -/
theorem findRoute_unknown_start_throws :
    findRoute [⟨1, "A", []⟩] 2 1 = none := by decide

/-- C3 counterexample: node 1 stores a dangling edge to the non-existent id 2.
Searching from 1 for the (also absent) id 3 enqueues the dangling id and
throws a TypeError when dequeuing it (`none`): the dangling edge is followed
onto the queue, not silently excluded, and the search aborts instead of
proceeding normally (silent exclusion would give `some []`). -/
theorem findRoute_dangling_edge_throws :
    findRoute [⟨1, "A", [2]⟩] 1 3 = none := by decide

/-- C4 counterexample: for the 3-node path A,B,C the classification loop of
`displayRoute` evaluates only 1 segment, not `3 - 1 = 2`: the final hop B→C is
skipped because the loop bound is `i < pathNames.length - 2`. -/
theorem classify_skips_last_pair :
    (classifySegments ["A", "B", "C"]).length ≠
    (["A", "B", "C"] : List String).length - 1 := by decide

theorem classifyAux_length :
    ∀ (cur : String) (names : List String),
    (classifyAux cur names).length = names.length - 2
  | _, [] => rfl
  | _, [_] => rfl
  | _, [_, _] => rfl
  | cur, a :: b :: c :: rest => by
    simp only [classifyAux, List.length_cons]
    rw [classifyAux_length (newLineColor a b) (b :: c :: rest)]
    simp only [List.length_cons]
    omega

/-- C4 amended: for every path of `n` nodes (`n ≥ 2`) the classification part
of `displayRoute` evaluates exactly `n - 2` segments — one for every
consecutive pair except the final hop into the last node, which its loop bound
`i < pathNames.length - 2` skips. -/
theorem classify_segment_count (names : List String) (h : 2 ≤ names.length) :
    (classifySegments names).length = names.length - 2 :=
  classifyAux_length "" names

theorem classify_segment_count_witness :
    2 ≤ (["A", "B", "C"] : List String).length ∧
    (classifySegments ["A", "B", "C"]).length = (["A", "B", "C"] : List String).length - 2 :=
  ⟨by decide, classify_segment_count ["A", "B", "C"] (by decide)⟩

/- ---------------------------------------------------------------------
Validity of returned paths (claim C9).
--------------------------------------------------------------------- -/

theorem edgesOf_storedEdge {nodes : List Node} {a b : Nat}
    (h : b ∈ edgesOf nodes a) : storedEdge nodes a b := by
  unfold edgesOf at h
  cases hfind : jsFind nodes a with
  | none => rw [hfind] at h; cases h
  | some node =>
    rw [hfind] at h
    simp at h
    exact ⟨node, jsFind_mem hfind, jsFind_id hfind, h⟩

/-- The validity invariant of the search loop: every queued pair holds a walk
from the start along stored edges ending at its own node, the walk's tail lies
in the visited set, walks not ending at the start are duplicate-free, and
every stored edge of the start is already visited (true from the second
iteration on, because the first iteration processes the start's edge list;
only re-enqueued copies of the start can carry a repeated identifier, and
those never reach a `return`). -/
structure InvA (nodes : List Node) (s : Nat) (queue : List (Nat × List Nat))
    (visited : List Nat) : Prop where
  walk : ∀ en ∈ queue, en.2.head? = some s ∧ en.2.getLast? = some en.1 ∧
    List.Chain' (fun a b => b ∈ edgesOf nodes a) en.2
  tails : ∀ en ∈ queue, ∀ y ∈ en.2.tail, y ∈ visited
  nodups : ∀ en ∈ queue, en.1 ≠ s → en.2.Nodup
  startExp : ∀ y ∈ edgesOf nodes s, y ∈ visited

theorem invA_restrict {nodes : List Node} {s : Nat} {en : Nat × List Nat}
    {rest : List (Nat × List Nat)} {visited : List Nat}
    (inv : InvA nodes s (en :: rest) visited) : InvA nodes s rest visited :=
  ⟨fun x hx => inv.walk x (List.mem_cons_of_mem _ hx),
   fun x hx => inv.tails x (List.mem_cons_of_mem _ hx),
   fun x hx => inv.nodups x (List.mem_cons_of_mem _ hx),
   inv.startExp⟩

theorem invA_step (nodes : List Node) (s : Nat) {c : Nat} {p : List Nat}
    {rest : List (Nat × List Nat)} {visited : List Nat} {node : Node}
    (inv : InvA nodes s ((c, p) :: rest) visited)
    (hfind : jsFind nodes c = some node) :
    InvA nodes s (rest ++ (freshIds node.edges visited).map (fun b => (b, p ++ [b])))
      (visAfter node.edges visited) := by
  have hedges : edgesOf nodes c = node.edges := by simp [edgesOf, hfind]
  have hpw := inv.walk (c, p) (List.mem_cons_self _ _)
  have hptail := inv.tails (c, p) (List.mem_cons_self _ _)
  have hvismono : ∀ y ∈ visited, y ∈ visAfter node.edges visited :=
    fun y hy => (mem_visAfter node.edges visited y).mpr (Or.inr hy)
  by_cases hcs : c = s
  · have hsub : ∀ x ∈ node.edges, x ∈ visited := by
      intro x hx
      apply inv.startExp
      rw [← hcs, hedges]
      exact hx
    obtain ⟨hfr, hva⟩ := freshIds_nil_of_subset node.edges visited hsub
    rw [hfr, hva]
    simp only [List.map_nil, List.append_nil]
    exact invA_restrict inv
  · constructor
    · intro en hen
      rcases List.mem_append.mp hen with hen | hen
      · exact inv.walk en (List.mem_cons_of_mem _ hen)
      · obtain ⟨b, hb, rfl⟩ := List.mem_map.mp hen
        refine ⟨?_, ?_, ?_⟩
        · cases p with
          | nil => exact absurd hpw.1 (by simp)
          | cons a q => simpa using hpw.1
        · simp
        · refine List.Chain'.append hpw.2.2 (List.chain'_singleton b) ?_
          intro z hz y hy
          have hz' : c = z := by rw [hpw.2.1] at hz; simpa using hz
          have hy' : b = y := by simpa using hy
          rw [← hz', ← hy', hedges]
          exact freshIds_subset node.edges visited b hb
    · intro en hen
      rcases List.mem_append.mp hen with hen | hen
      · intro y hy
        exact hvismono y (inv.tails en (List.mem_cons_of_mem _ hen) y hy)
      · obtain ⟨b, hb, rfl⟩ := List.mem_map.mp hen
        intro y hy
        cases p with
        | nil => exact absurd hpw.1 (by simp)
        | cons a q =>
          simp only [List.cons_append, List.tail_cons] at hy
          rcases List.mem_append.mp hy with hy | hy
          · exact hvismono y (hptail y hy)
          · have : y = b := by simpa using hy
            rw [this]
            exact (mem_visAfter node.edges visited b).mpr (Or.inl hb)
    · intro en hen hens
      rcases List.mem_append.mp hen with hen | hen
      · exact inv.nodups en (List.mem_cons_of_mem _ hen) hens
      · obtain ⟨b, hb, rfl⟩ := List.mem_map.mp hen
        have hbs : b ≠ s := hens
        have hbnv : b ∉ visited := freshIds_not_visited node.edges visited b hb
        have hpnd : p.Nodup := inv.nodups (c, p) (List.mem_cons_self _ _) hcs
        rw [List.nodup_append]
        refine ⟨hpnd, List.nodup_singleton b, ?_⟩
        intro a ha hab
        have hab' : a = b := by simpa using hab
        cases p with
        | nil => exact absurd hpw.1 (by simp)
        | cons hd q =>
          have hhd : hd = s := by simpa using hpw.1
          rcases List.mem_cons.mp ha with rfl | ha'
          · exact hbs (hab'.symm.trans hhd)
          · have hav : a ∈ visited := hptail a (by simpa using ha')
            exact hbnv (hab' ▸ hav)
    · intro y hy
      exact hvismono y (inv.startExp y hy)

theorem bfsRun_valid (nodes : List Node) (s e : Nat) (hne : e ≠ s) :
    ∀ (fuel : Nat) (queue : List (Nat × List Nat)) (visited : List Nat),
    InvA nodes s queue visited →
    ∀ p, bfsRun nodes e fuel queue visited = some (some p) → p ≠ [] →
    p.head? = some s ∧ p.getLast? = some e ∧
    List.Chain' (fun a b => b ∈ edgesOf nodes a) p ∧ p.Nodup := by
  intro fuel
  induction fuel with
  | zero => intro queue visited _ p h; simp [bfsRun] at h
  | succ fuel ih =>
    intro queue visited inv p h hp
    match queue with
    | [] =>
      simp only [bfsRun, Option.some.injEq] at h
      exact absurd h.symm hp
    | (c, q) :: rest =>
      by_cases hc : c = e
      · simp only [bfsRun, if_pos hc, Option.some.injEq] at h
        subst h
        have hw := inv.walk (c, q) (List.mem_cons_self _ _)
        have hcns : c ≠ s := fun hcs => hne (hc ▸ hcs)
        have hnd := inv.nodups (c, q) (List.mem_cons_self _ _) hcns
        exact ⟨hw.1, hc ▸ hw.2.1, hw.2.2, hnd⟩
      · cases hfind : jsFind nodes c with
        | none =>
          simp only [bfsRun, if_neg hc, hfind] at h
          simp at h
        | some node =>
          simp only [bfsRun, if_neg hc, hfind, enqueueEdges_eq] at h
          exact ih _ _ (invA_step nodes s inv hfind) p h hp

theorem findRoute_crash_start (nodes : List Node) (s e : Nat)
    (hs0 : s ≠ 0) (he0 : e ≠ 0) (hse : ¬ s = e)
    (hfind : jsFind nodes s = none) : findRoute nodes s e = none := by
  unfold findRoute fuelBound
  rw [if_neg (by simp [hs0, he0] : ¬ (s = 0 ∨ e = 0))]
  rw [show (allIds nodes).toFinset.card + 2 = ((allIds nodes).toFinset.card + 1) + 1
    from rfl]
  simp only [bfsRun, if_neg hse, hfind]
  rfl

theorem findRoute_step1 (nodes : List Node) (s e : Nat)
    (hs0 : s ≠ 0) (he0 : e ≠ 0) (hse : ¬ s = e) {node : Node}
    (hfind : jsFind nodes s = some node) :
    findRoute nodes s e =
      (bfsRun nodes e ((allIds nodes).toFinset.card + 1)
        ((freshIds node.edges []).map (fun b => (b, [s, b])))
        (visAfter node.edges [])).join := by
  unfold findRoute fuelBound
  rw [if_neg (by simp [hs0, he0] : ¬ (s = 0 ∨ e = 0))]
  rw [show (allIds nodes).toFinset.card + 2 = ((allIds nodes).toFinset.card + 1) + 1
    from rfl]
  simp only [bfsRun, if_neg hse, hfind, enqueueEdges_eq, List.nil_append,
    List.singleton_append]

theorem invA_init (nodes : List Node) (s : Nat) {node : Node}
    (hfind : jsFind nodes s = some node) :
    InvA nodes s ((freshIds node.edges []).map (fun b => (b, [s, b])))
      (visAfter node.edges []) := by
  have hedges : edgesOf nodes s = node.edges := by simp [edgesOf, hfind]
  constructor
  · intro en hen
    obtain ⟨b, hb, rfl⟩ := List.mem_map.mp hen
    refine ⟨rfl, rfl, ?_⟩
    rw [List.chain'_pair, hedges]
    exact freshIds_subset node.edges [] b hb
  · intro en hen
    obtain ⟨b, hb, rfl⟩ := List.mem_map.mp hen
    intro y hy
    have hyb : y = b := by simpa using hy
    rw [hyb]
    exact (mem_visAfter node.edges [] b).mpr (Or.inl hb)
  · intro en hen hens
    obtain ⟨b, hb, rfl⟩ := List.mem_map.mp hen
    refine List.nodup_cons.mpr ⟨?_, List.nodup_singleton b⟩
    intro hmem
    have hsb : s = b := by simpa using hmem
    exact hens hsb.symm
  · intro y hy
    rw [hedges] at hy
    exact mem_visAfter_of_mem node.edges [] y hy

/-- C9: every non-empty path returned by `findRoute` is a valid simple path:
it starts at `startId`, ends at `endId`, contains no repeated identifier, and
every consecutive pair of identifiers is connected by an edge stored in the
graph. -/
theorem findRoute_valid_path (nodes : List Node) (s e : Nat) (p : List Nat)
    (h : findRoute nodes s e = some p) (hp : p ≠ []) :
    p.head? = some s ∧ p.getLast? = some e ∧ p.Nodup ∧
    List.Chain' (storedEdge nodes) p := by
  by_cases hz : s = 0 ∨ e = 0
  · exfalso
    unfold findRoute at h
    rw [if_pos hz] at h
    have h0 : ([] : List Nat) = p := by simpa using h
    exact hp h0.symm
  · have hs0 : s ≠ 0 := fun hh => hz (Or.inl hh)
    have he0 : e ≠ 0 := fun hh => hz (Or.inr hh)
    by_cases hse : s = e
    · subst hse
      rw [findRoute_self nodes s hs0] at h
      have hps : [s] = p := by simpa using h
      rw [← hps]
      exact ⟨rfl, by simp, by simp, List.chain'_singleton s⟩
    · cases hfind : jsFind nodes s with
      | none =>
        rw [findRoute_crash_start nodes s e hs0 he0 hse hfind] at h
        cases h
      | some node =>
        rw [findRoute_step1 nodes s e hs0 he0 hse hfind] at h
        have h' : bfsRun nodes e ((allIds nodes).toFinset.card + 1)
            ((freshIds node.edges []).map (fun b => (b, [s, b])))
            (visAfter node.edges []) = some (some p) := Option.join_eq_some.mp h
        have hv := bfsRun_valid nodes s e (fun hh => hse hh.symm) _ _ _
          (invA_init nodes s hfind) p h' hp
        exact ⟨hv.1, hv.2.1, hv.2.2.2,
          hv.2.2.1.imp (fun a b hab => edgesOf_storedEdge hab)⟩

theorem findRoute_valid_path_witness :
    ([1, 2] : List Nat).head? = some 1 ∧ ([1, 2] : List Nat).getLast? = some 2 ∧
    ([1, 2] : List Nat).Nodup ∧
    List.Chain' (storedEdge [⟨1, "A", [2]⟩, ⟨2, "B", [1]⟩]) [1, 2] :=
  findRoute_valid_path [⟨1, "A", [2]⟩, ⟨2, "B", [1]⟩] 1 2 [1, 2] (by decide) (by decide)

/- ---------------------------------------------------------------------
Shortest-path correctness (claims C1 and C2): the level invariant.
--------------------------------------------------------------------- -/

theorem chain_reachN (nodes : List Node) (s : Nat) :
    ∀ (p : List Nat), List.Chain' (fun a b => b ∈ edgesOf nodes a) p →
    p.head? = some s → ∀ x, p.getLast? = some x →
    ReachN nodes s (p.length - 1) x := by
  intro p
  induction p using List.reverseRecOn with
  | nil => intro _ h; simp at h
  | append_singleton q y ih =>
    intro hch hhd x hlast
    have hxy : y = x := by
      rw [List.getLast?_concat] at hlast
      simpa using hlast
    subst hxy
    cases q with
    | nil =>
      have hys : y = s := by simpa using hhd
      simp only [List.nil_append, List.length_singleton]
      rw [hys]
      exact ReachN.zero
    | cons a q' =>
      obtain ⟨ch1, ch2, hlink⟩ := List.chain'_append.mp hch
      have hz : (a :: q').getLast? = some ((a :: q').getLast (by simp)) :=
        List.getLast?_eq_getLast _ _
      have hyedge : y ∈ edgesOf nodes ((a :: q').getLast (by simp)) := by
        apply hlink
        · simpa using hz
        · simp
      have hh : (a :: q').head? = some s := by simpa using hhd
      have hr := ih ch1 hh _ hz
      have := ReachN.succ hr hyedge
      have hlen : (a :: q').length - 1 + 1 = ((a :: q') ++ [y]).length - 1 := by
        simp
      rw [hlen] at this
      exact this

/-- Extension of the validity invariant used to prove shortest-path
correctness.  `d` is the current breadth-first level: queued path lengths come
in two adjacent blocks (`d + 1` then `d + 2` nodes, i.e. levels `d` and
`d + 1`), every node of level below `d` is visited and fully expanded, queued
paths not ending at the start are level-optimal for their own node, visited
nodes are still queued or fully expanded, and the end node — if ever visited —
is still queued (dequeuing it would have returned). -/
structure InvB (nodes : List Node) (s e : Nat) (queue : List (Nat × List Nat))
    (visited : List Nat) (d : Nat) : Prop where
  valid : InvA nodes s queue visited
  blocks : ∃ A B, queue = A ++ B ∧ (∀ en ∈ A, en.2.length = d + 1) ∧
    (∀ en ∈ B, en.2.length = d + 2) ∧ (B = [] ∨ A ≠ [])
  processed : ∀ n x, n < d → ReachN nodes s n x →
    (x = s ∨ x ∈ visited) ∧ ∀ y ∈ edgesOf nodes x, y ∈ visited
  opt : ∀ en ∈ queue, en.1 ≠ s → ∀ n, ReachN nodes s n en.1 → en.2.length ≤ n + 1
  visInQ : ∀ x ∈ visited, (∃ p, (x, p) ∈ queue) ∨ ∀ y ∈ edgesOf nodes x, y ∈ visited
  target : e ∈ visited → ∃ p, (e, p) ∈ queue
  endsVis : ∀ en ∈ queue, en.1 = s ∨ en.1 ∈ visited
  visIds : ∀ x ∈ visited, x ∈ allIds nodes

theorem reach_level_visited {nodes : List Node} {s : Nat} {visited : List Nat} {d : Nat}
    (hproc : ∀ n x, n < d → ReachN nodes s n x →
      (x = s ∨ x ∈ visited) ∧ ∀ y ∈ edgesOf nodes x, y ∈ visited) :
    ∀ x, x ≠ s → ReachN nodes s d x → x ∈ visited := by
  intro x hxs hr
  cases hr with
  | zero => exact absurd rfl hxs
  | succ hr' hedge =>
    rename_i n a
    exact (hproc n a (Nat.lt_succ_self n) hr').2 x hedge

theorem invB_step (nodes : List Node) (s e : Nat) {c : Nat} {q : List Nat}
    {rest : List (Nat × List Nat)} {visited : List Nat} {node : Node} {d : Nat}
    (inv : InvB nodes s e ((c, q) :: rest) visited d)
    (hfind : jsFind nodes c = some node) (hc : ¬ c = e) :
    ∃ d', InvB nodes s e
      (rest ++ (freshIds node.edges visited).map (fun b => (b, q ++ [b])))
      (visAfter node.edges visited) d' := by
  have hedges : edgesOf nodes c = node.edges := by simp [edgesOf, hfind]
  have hvalid := invA_step nodes s inv.valid hfind
  have hvismono : ∀ y ∈ visited, y ∈ visAfter node.edges visited :=
    fun y hy => (mem_visAfter node.edges visited y).mpr (Or.inr hy)
  have hfreshmem : ∀ b ∈ freshIds node.edges visited, b ∈ visAfter node.edges visited :=
    fun b hb => (mem_visAfter node.edges visited b).mpr (Or.inl hb)
  have hcexp : ∀ y ∈ edgesOf nodes c, y ∈ visAfter node.edges visited := by
    intro y hy
    rw [hedges] at hy
    exact mem_visAfter_of_mem node.edges visited y hy
  obtain ⟨A, B, hq, hA, hB, hAB⟩ := inv.blocks
  cases A with
  | nil =>
    exfalso
    rcases hAB with hB0 | hA0
    · rw [hB0] at hq; simp at hq
    · exact hA0 rfl
  | cons a0 A' =>
    rw [List.cons_append] at hq
    injection hq with h1 h2
    subst h1
    have hlenq : q.length = d + 1 := by
      have := hA (c, q) (List.mem_cons_self _ _)
      simpa using this
    have hopt' : ∀ en ∈ rest ++ (freshIds node.edges visited).map (fun b => (b, q ++ [b])),
        en.1 ≠ s → ∀ n, ReachN nodes s n en.1 → en.2.length ≤ n + 1 := by
      intro en hen hens n hr
      rcases List.mem_append.mp hen with hen | hen
      · exact inv.opt en (List.mem_cons_of_mem _ hen) hens n hr
      · obtain ⟨b, hb, rfl⟩ := List.mem_map.mp hen
        have hbnv : b ∉ visited := freshIds_not_visited node.edges visited b hb
        simp only [List.length_append, List.length_singleton, hlenq]
        rcases Nat.lt_trichotomy n d with hlt | heq | hgt
        · exfalso
          rcases (inv.processed n b hlt hr).1 with hbs | hbv
          · exact hens hbs
          · exact hbnv hbv
        · exfalso
          subst heq
          exact hbnv (reach_level_visited inv.processed b hens hr)
        · omega
    have hvisInQ' : ∀ x ∈ visAfter node.edges visited,
        (∃ px, (x, px) ∈ rest ++ (freshIds node.edges visited).map
          (fun b => (b, q ++ [b]))) ∨
        ∀ y ∈ edgesOf nodes x, y ∈ visAfter node.edges visited := by
      intro x hx
      rcases (mem_visAfter node.edges visited x).mp hx with hxF | hxv
      · exact Or.inl ⟨q ++ [x], List.mem_append_right _ (List.mem_map.mpr ⟨x, hxF, rfl⟩)⟩
      · rcases inv.visInQ x hxv with ⟨px, hpx⟩ | hexp
        · rcases List.mem_cons.mp hpx with hhead | hrest
          · have hxc : x = c := congrArg Prod.fst hhead
            rw [hxc]
            exact Or.inr hcexp
          · exact Or.inl ⟨px, List.mem_append_left _ hrest⟩
        · exact Or.inr (fun y hy => hvismono y (hexp y hy))
    have htarget' : e ∈ visAfter node.edges visited →
        ∃ pe, (e, pe) ∈ rest ++ (freshIds node.edges visited).map
          (fun b => (b, q ++ [b])) := by
      intro hev
      rcases (mem_visAfter node.edges visited e).mp hev with heF | hev'
      · exact ⟨q ++ [e], List.mem_append_right _ (List.mem_map.mpr ⟨e, heF, rfl⟩)⟩
      · obtain ⟨pe, hpe⟩ := inv.target hev'
        rcases List.mem_cons.mp hpe with hhead | hrest
        · exact absurd (congrArg Prod.fst hhead : e = c).symm hc
        · exact ⟨pe, List.mem_append_left _ hrest⟩
    have hendsVis' : ∀ en ∈ rest ++ (freshIds node.edges visited).map
        (fun b => (b, q ++ [b])), en.1 = s ∨ en.1 ∈ visAfter node.edges visited := by
      intro en hen
      rcases List.mem_append.mp hen with hen | hen
      · rcases inv.endsVis en (List.mem_cons_of_mem _ hen) with hh | hh
        · exact Or.inl hh
        · exact Or.inr (hvismono _ hh)
      · obtain ⟨b, hb, rfl⟩ := List.mem_map.mp hen
        exact Or.inr (hfreshmem b hb)
    have hvisIds' : ∀ x ∈ visAfter node.edges visited, x ∈ allIds nodes := by
      intro x hx
      rcases (mem_visAfter node.edges visited x).mp hx with hxF | hxv
      · exact edges_subset_allIds (jsFind_mem hfind) x
          (freshIds_subset node.edges visited x hxF)
      · exact inv.visIds x hxv
    have hnewlen : ∀ en ∈ (freshIds node.edges visited).map (fun b => (b, q ++ [b])),
        en.2.length = d + 2 := by
      intro en hen
      obtain ⟨b, hb, rfl⟩ := List.mem_map.mp hen
      simp [hlenq]
    by_cases hA' : A' = []
    · subst hA'
      have hrB : rest = B := by simpa using h2
      subst hrB
      refine ⟨d + 1, ?_⟩
      refine ⟨hvalid, ?_, ?_, hopt', hvisInQ', htarget', hendsVis', hvisIds'⟩
      · refine ⟨rest ++ (freshIds node.edges visited).map (fun b => (b, q ++ [b])), [],
          (List.append_nil _).symm, ?_, ?_, Or.inl rfl⟩
        · intro en hen
          rcases List.mem_append.mp hen with hen | hen
          · exact hB en hen
          · exact hnewlen en hen
        · intro en hen; cases hen
      · intro n x hn hr
        rcases Nat.lt_or_ge n d with hlt | hge
        · have hold := inv.processed n x hlt hr
          refine ⟨?_, fun y hy => hvismono y (hold.2 y hy)⟩
          rcases hold.1 with hh | hh
          · exact Or.inl hh
          · exact Or.inr (hvismono _ hh)
        · have hnd : n = d := by omega
          have hrd : ReachN nodes s d x := hnd ▸ hr
          by_cases hxs : x = s
          · subst hxs
            exact ⟨Or.inl rfl, fun y hy => hvismono y (inv.valid.startExp y hy)⟩
          · have hxv : x ∈ visited := reach_level_visited inv.processed x hxs hrd
            refine ⟨Or.inr (hvismono x hxv), ?_⟩
            rcases inv.visInQ x hxv with ⟨px, hpx⟩ | hexp
            · rcases List.mem_cons.mp hpx with hhead | hrest2
              · have hxc : x = c := congrArg Prod.fst hhead
                rw [hxc]
                exact hcexp
              · exfalso
                have hlen2 : px.length = d + 2 := by
                  have := hB (x, px) hrest2
                  simpa using this
                have hopt2 : px.length ≤ d + 1 := by
                  simpa using inv.opt (x, px) (List.mem_cons_of_mem _ hrest2) hxs d hrd
                omega
            · exact fun y hy => hvismono y (hexp y hy)
    · refine ⟨d, ?_⟩
      refine ⟨hvalid, ?_, ?_, hopt', hvisInQ', htarget', hendsVis', hvisIds'⟩
      · refine ⟨A', B ++ (freshIds node.edges visited).map (fun b => (b, q ++ [b])),
          by rw [h2, List.append_assoc], ?_, ?_, Or.inr hA'⟩
        · intro en hen
          exact hA en (List.mem_cons_of_mem _ hen)
        · intro en hen
          rcases List.mem_append.mp hen with hen | hen
          · exact hB en hen
          · exact hnewlen en hen
      · intro n x hn hr
        have hold := inv.processed n x hn hr
        refine ⟨?_, fun y hy => hvismono y (hold.2 y hy)⟩
        rcases hold.1 with hh | hh
        · exact Or.inl hh
        · exact Or.inr (hvismono _ hh)

theorem bfsRun_complete (nodes : List Node) (s e : Nat)
    (hs : (jsFind nodes s).isSome = true)
    (hcl : ∀ x ∈ allIds nodes, x = e ∨ (jsFind nodes x).isSome = true)
    (hne : e ≠ s) :
    ∀ (fuel : Nat) (queue : List (Nat × List Nat)) (visited : List Nat) (d : Nat),
    InvB nodes s e queue visited d →
    queue.length + cntUnvisited nodes visited + 1 ≤ fuel →
    ∃ p, bfsRun nodes e fuel queue visited = some (some p) ∧
      (p = [] → ∀ n, ¬ ReachN nodes s n e) ∧
      (p ≠ [] → p.getLast? = some e ∧ ReachN nodes s (p.length - 1) e ∧
        ∀ n, ReachN nodes s n e → p.length ≤ n + 1) := by
  intro fuel
  induction fuel with
  | zero => intro queue visited d _ hm; omega
  | succ fuel ih =>
    intro queue visited d inv hm
    match queue with
    | [] =>
      refine ⟨[], rfl, ?_, fun hp => absurd rfl hp⟩
      intro _ n hr
      have hreachvis : ∀ m x, ReachN nodes s m x → x = s ∨ x ∈ visited := by
        intro m x hrx
        induction hrx with
        | zero => exact Or.inl rfl
        | succ hr' hedge ihr =>
          rename_i m' a b
          rcases ihr with ha | hav
          · exact Or.inr (inv.valid.startExp _ (ha ▸ hedge))
          · rcases inv.visInQ a hav with ⟨px, hpx⟩ | hexp
            · exact absurd hpx (List.not_mem_nil _)
            · exact Or.inr (hexp _ hedge)
      rcases hreachvis n e hr with he | he
      · exact hne he
      · obtain ⟨pe, hpe⟩ := inv.target he
        exact absurd hpe (List.not_mem_nil _)
    | (c, q) :: rest =>
      by_cases hc : c = e
      · have hw := inv.valid.walk (c, q) (List.mem_cons_self _ _)
        have hq0 : q ≠ [] := by
          intro h0
          rw [h0] at hw
          simp at hw
        have hcs : c ≠ s := fun h => hne (hc ▸ h)
        refine ⟨q, by simp [bfsRun, hc], fun h0 => absurd h0 hq0, fun _ => ?_⟩
        refine ⟨?_, ?_, ?_⟩
        · rw [hw.2.1, hc]
        · have := chain_reachN nodes s q hw.2.2 hw.1 c hw.2.1
          rwa [hc] at this
        · intro n hr
          exact inv.opt (c, q) (List.mem_cons_self _ _) hcs n (by rwa [hc])
      · have hfindS : (jsFind nodes c).isSome = true := by
          rcases inv.endsVis (c, q) (List.mem_cons_self _ _) with hcs | hcv
          · rw [show c = s from hcs]; exact hs
          · rcases hcl c (inv.visIds c hcv) with hce | hsome
            · exact absurd hce hc
            · exact hsome
        obtain ⟨node, hfind⟩ := Option.isSome_iff_exists.mp hfindS
        obtain ⟨d', inv'⟩ := invB_step nodes s e inv hfind hc
        have hsub := edges_subset_allIds (jsFind_mem hfind)
        have hcnt := cnt_visAfter nodes node.edges visited hsub
        have hm' : (rest ++ (freshIds node.edges visited).map
              (fun b => (b, q ++ [b]))).length +
            cntUnvisited nodes (visAfter node.edges visited) + 1 ≤ fuel := by
          simp only [List.length_append, List.length_map, List.length_cons] at hm ⊢
          omega
        obtain ⟨p, hp, h1, h2⟩ := ih _ _ d' inv' hm'
        refine ⟨p, ?_, h1, h2⟩
        simp only [bfsRun, if_neg hc, hfind, enqueueEdges_eq]
        exact hp

theorem invB_init (nodes : List Node) (s e : Nat) {node : Node}
    (hfind : jsFind nodes s = some node) :
    InvB nodes s e ((freshIds node.edges []).map (fun b => (b, [s, b])))
      (visAfter node.edges []) 1 := by
  have hedges : edgesOf nodes s = node.edges := by simp [edgesOf, hfind]
  refine ⟨invA_init nodes s hfind, ?_, ?_, ?_, ?_, ?_, ?_, ?_⟩
  · refine ⟨(freshIds node.edges []).map (fun b => (b, [s, b])), [],
      (List.append_nil _).symm, ?_, ?_, Or.inl rfl⟩
    · intro en hen
      obtain ⟨b, hb, rfl⟩ := List.mem_map.mp hen
      rfl
    · intro en hen; cases hen
  · intro n x hn hr
    have hn0 : n = 0 := by omega
    subst hn0
    cases hr with
    | zero =>
      refine ⟨Or.inl rfl, ?_⟩
      intro y hy
      rw [hedges] at hy
      exact mem_visAfter_of_mem node.edges [] y hy
  · intro en hen hens n hr
    obtain ⟨b, hb, rfl⟩ := List.mem_map.mp hen
    have hens' : b ≠ s := hens
    have hr' : ReachN nodes s n b := hr
    show ([s, b] : List Nat).length ≤ n + 1
    cases n with
    | zero =>
      cases hr' with
      | zero => exact absurd rfl hens'
    | succ n =>
      simp only [List.length_cons, List.length_singleton, List.length_nil]
      omega
  · intro x hx
    rcases (mem_visAfter node.edges [] x).mp hx with hxF | hxv
    · exact Or.inl ⟨[s, x], List.mem_map.mpr ⟨x, hxF, rfl⟩⟩
    · cases hxv
  · intro he
    rcases (mem_visAfter node.edges [] e).mp he with heF | hev
    · exact ⟨[s, e], List.mem_map.mpr ⟨e, heF, rfl⟩⟩
    · cases hev
  · intro en hen
    obtain ⟨b, hb, rfl⟩ := List.mem_map.mp hen
    exact Or.inr ((mem_visAfter node.edges [] b).mpr (Or.inl hb))
  · intro x hx
    rcases (mem_visAfter node.edges [] x).mp hx with hxF | hxv
    · exact edges_subset_allIds (jsFind_mem hfind) x (freshIds_subset node.edges [] x hxF)
    · cases hxv

theorem findRoute_found (nodes : List Node) (s e : Nat)
    (hs0 : s ≠ 0) (he0 : e ≠ 0)
    (hs : (jsFind nodes s).isSome = true)
    (hcl : ∀ x ∈ allIds nodes, x = e ∨ (jsFind nodes x).isSome = true)
    (hne : e ≠ s) :
    ∃ p, findRoute nodes s e = some p ∧
      (p = [] → ∀ n, ¬ ReachN nodes s n e) ∧
      (p ≠ [] → p.getLast? = some e ∧ ReachN nodes s (p.length - 1) e ∧
        ∀ n, ReachN nodes s n e → p.length ≤ n + 1) := by
  obtain ⟨node, hfind⟩ := Option.isSome_iff_exists.mp hs
  have hsub := edges_subset_allIds (jsFind_mem hfind)
  have hcnt := cnt_visAfter nodes node.edges [] hsub
  have hcnt0 : cntUnvisited nodes [] = (allIds nodes).toFinset.card := by
    simp [cntUnvisited]
  have hmeas : ((freshIds node.edges []).map (fun b => (b, [s, b]))).length +
      cntUnvisited nodes (visAfter node.edges []) + 1 ≤
      (allIds nodes).toFinset.card + 1 := by
    simp only [List.length_map]
    omega
  obtain ⟨p, hp, h1, h2⟩ := bfsRun_complete nodes s e hs hcl hne
    ((allIds nodes).toFinset.card + 1) _ _ 1 (invB_init nodes s e hfind) hmeas
  refine ⟨p, ?_, h1, h2⟩
  rw [findRoute_step1 nodes s e hs0 he0 (fun hh => hne hh.symm) hfind, hp]
  rfl

/-- C1 counterexample: the identifier 0 is JS-falsy, so on the closed graph
with nodes 0 and 1 (1 reachable from 0 in one step) the initial guard of
`findRoute` returns the empty result — no path at all is returned, let alone
one of the shortest edge count. -/
theorem findRoute_shortest_zero_start :
    closedGraph [⟨0, "A", [1]⟩, ⟨1, "B", [0]⟩] ∧
    ReachN [⟨0, "A", [1]⟩, ⟨1, "B", [0]⟩] 0 1 1 ∧
    findRoute [⟨0, "A", [1]⟩, ⟨1, "B", [0]⟩] 0 1 = some [] :=
  ⟨by decide, ReachN.succ ReachN.zero (by decide), by decide⟩

/-- C1 amended: for every closed graph and every pair of JS-truthy (nonzero)
node identifiers `(s, e)` with `e` reachable from `s` (edges taken in the
direction they are stored), `findRoute` returns a path whose edge count
`p.length - 1` equals the true breadth-first distance from `s` to `e`: the
path realises some walk of that length and no shorter walk exists.  When `s`
or `e` is the falsy identifier 0, the initial guard returns the empty result
instead. -/
theorem findRoute_shortest (nodes : List Node) (s e : Nat)
    (hs0 : s ≠ 0) (he0 : e ≠ 0)
    (hcl : closedGraph nodes) (hs : (jsFind nodes s).isSome = true)
    (hreach : ∃ n, ReachN nodes s n e) :
    ∃ p, findRoute nodes s e = some p ∧ ReachN nodes s (p.length - 1) e ∧
      ∀ n, ReachN nodes s n e → p.length - 1 ≤ n := by
  by_cases hne : e = s
  · subst hne
    refine ⟨[e], findRoute_self nodes e hs0, ReachN.zero, ?_⟩
    intro n _
    exact Nat.zero_le n
  · obtain ⟨p, hp, h1, h2⟩ := findRoute_found nodes s e hs0 he0 hs
      (fun x hx => Or.inr (hcl x hx)) hne
    have hpne : p ≠ [] := by
      intro h0
      obtain ⟨n, hn⟩ := hreach
      exact h1 h0 n hn
    obtain ⟨hlast, hr, hmin⟩ := h2 hpne
    refine ⟨p, hp, hr, ?_⟩
    intro n hn
    have := hmin n hn
    omega

theorem findRoute_shortest_witness :
    ∃ p, findRoute [⟨1, "A", [2]⟩, ⟨2, "B", [1]⟩] 1 2 = some p ∧
      ReachN [⟨1, "A", [2]⟩, ⟨2, "B", [1]⟩] 1 (p.length - 1) 2 ∧
      ∀ n, ReachN [⟨1, "A", [2]⟩, ⟨2, "B", [1]⟩] 1 n 2 → p.length - 1 ≤ n :=
  findRoute_shortest [⟨1, "A", [2]⟩, ⟨2, "B", [1]⟩] 1 2 (by decide) (by decide)
    (by decide) (by decide) ⟨1, ReachN.succ ReachN.zero (by decide)⟩

/-- C2 amended: an unknown identifier does not always yield an empty result.
When the start or end identifier is the JS-falsy number 0, the initial guard
returns empty before any lookup.  Otherwise: when the end identifier is
unknown (graph closed, start known) the search drains the queue and returns
the empty result; when the start identifier is unknown and differs from the
end, the first dequeue throws a TypeError (modelled `none`); and when start
equals end the path `[startId]` is returned even though the identifier is
unknown. -/
theorem findRoute_unknown_ids (nodes : List Node) (s e : Nat) :
    (s = 0 ∨ e = 0 → findRoute nodes s e = some []) ∧
    (closedGraph nodes → (jsFind nodes s).isSome = true → jsFind nodes e = none →
      findRoute nodes s e = some []) ∧
    (s ≠ 0 → e ≠ 0 → jsFind nodes s = none → s ≠ e → findRoute nodes s e = none) ∧
    (e ≠ 0 → findRoute nodes e e = some [e]) := by
  refine ⟨?_, ?_, ?_, fun he0 => findRoute_self nodes e he0⟩
  · intro hz
    unfold findRoute
    rw [if_pos hz]
  · intro hcl hs henone
    by_cases hz : s = 0 ∨ e = 0
    · unfold findRoute
      rw [if_pos hz]
    · have hs0 : s ≠ 0 := fun hh => hz (Or.inl hh)
      have he0 : e ≠ 0 := fun hh => hz (Or.inr hh)
      have hne : e ≠ s := by
        intro h
        rw [h] at henone
        rw [henone] at hs
        simp at hs
      obtain ⟨p, hp, h1, h2⟩ := findRoute_found nodes s e hs0 he0 hs
        (fun x hx => Or.inr (hcl x hx)) hne
      have hunreach : ∀ n, ¬ ReachN nodes s n e := by
        intro n hr
        cases hr with
        | zero => exact hne rfl
        | succ hr' hedge =>
          rename_i n' a
          have hmem : e ∈ allIds nodes := by
            unfold edgesOf at hedge
            cases hfa : jsFind nodes a with
            | none => rw [hfa] at hedge; cases hedge
            | some na =>
              rw [hfa] at hedge
              simp at hedge
              exact edges_subset_allIds (jsFind_mem hfa) e hedge
          have := hcl e hmem
          rw [henone] at this
          simp at this
      by_cases hp0 : p = []
      · rw [hp0] at hp
        exact hp
      · obtain ⟨hlast, hr, _⟩ := h2 hp0
        exact absurd hr (hunreach _)
  · intro hs0 he0 hnone hne
    exact findRoute_crash_start nodes s e hs0 he0 hne hnone

theorem findRoute_unknown_ids_witness :
    findRoute [⟨1, "A", []⟩] 0 2 = some [] ∧
    findRoute [⟨1, "A", []⟩] 1 2 = some [] ∧
    findRoute [⟨1, "A", []⟩] 3 2 = none ∧
    findRoute [⟨1, "A", []⟩] 5 5 = some [5] :=
  ⟨(findRoute_unknown_ids [⟨1, "A", []⟩] 0 2).1 (Or.inl rfl),
   (findRoute_unknown_ids [⟨1, "A", []⟩] 1 2).2.1 (by decide) (by decide) (by decide),
   (findRoute_unknown_ids [⟨1, "A", []⟩] 3 2).2.2.1 (by decide) (by decide)
     (by decide) (by decide),
   (findRoute_unknown_ids [⟨1, "A", []⟩] 5 5).2.2.2 (by decide)⟩

/-- C3 amended: a dangling edge reference is not excluded from traversal: the
dangling identifier is enqueued like any other neighbour.  For JS-truthy
(nonzero) start and end identifiers, if the dangling identifier is the end
identifier the search returns the path leading to it (ending at a
non-existent node); and when a dangling identifier other than the end is
dequeued, the search throws a TypeError instead of proceeding (concrete
instance in the second conjunct).  Only when the start or end identifier is
the falsy number 0 does the initial guard return empty first. -/
theorem findRoute_dangling_followed (nodes : List Node) (s e : Nat)
    (hs0 : s ≠ 0) (he0 : e ≠ 0)
    (hs : (jsFind nodes s).isSome = true)
    (hcl : ∀ x ∈ allIds nodes, x = e ∨ (jsFind nodes x).isSome = true)
    (hdang : jsFind nodes e = none) (hreach : ∃ n, ReachN nodes s n e) :
    (∃ p, findRoute nodes s e = some p ∧ p ≠ [] ∧ p.getLast? = some e) ∧
    findRoute [⟨1, "A", [2]⟩] 1 3 = none := by
  refine ⟨?_, by decide⟩
  have hne : e ≠ s := by
    intro h
    rw [h] at hdang
    rw [hdang] at hs
    simp at hs
  obtain ⟨p, hp, h1, h2⟩ := findRoute_found nodes s e hs0 he0 hs hcl hne
  obtain ⟨n, hn⟩ := hreach
  have hpne : p ≠ [] := fun h0 => h1 h0 n hn
  exact ⟨p, hp, hpne, (h2 hpne).1⟩

theorem findRoute_dangling_followed_witness :
    (∃ p, findRoute [⟨1, "A", [2]⟩] 1 2 = some p ∧ p ≠ [] ∧ p.getLast? = some 2) ∧
    findRoute [⟨1, "A", [2]⟩] 1 3 = none :=
  findRoute_dangling_followed [⟨1, "A", [2]⟩] 1 2 (by decide) (by decide)
    (by decide) (by decide) (by decide) ⟨1, ReachN.succ ReachN.zero (by decide)⟩

/- ---------------------------------------------------------------------
Transfer detection (claim C6).
--------------------------------------------------------------------- -/

theorem newLineColor_ne_empty (a b : String) : newLineColor a b ≠ "" := by
  unfold newLineColor
  repeat' split
  all_goals decide

theorem classifyAux_head_isTransfer :
    ∀ (cur : String) (names : List String) (h : 0 < (classifyAux cur names).length),
    ((classifyAux cur names).get ⟨0, h⟩).isTransfer =
      (((classifyAux cur names).get ⟨0, h⟩).line != cur && cur != "")
  | cur, [], h => by simp [classifyAux] at h
  | cur, [a], h => by simp [classifyAux] at h
  | cur, [a, b], h => by simp [classifyAux] at h
  | cur, a :: b :: c :: rest, h => rfl

theorem classifyAux_consecutive :
    ∀ (names : List String) (cur : String) (i : Nat)
    (h : i + 1 < (classifyAux cur names).length),
    (((classifyAux cur names).get ⟨i + 1, h⟩).isTransfer = true ↔
      ((classifyAux cur names).get ⟨i + 1, h⟩).line ≠
      ((classifyAux cur names).get ⟨i, Nat.lt_of_succ_lt h⟩).line)
  | [], cur, i, h => by simp [classifyAux] at h
  | [a], cur, i, h => by simp [classifyAux] at h
  | [a, b], cur, i, h => by simp [classifyAux] at h
  | a :: b :: c :: rest, cur, 0, h => by
    have hL : 0 < (classifyAux (newLineColor a b) (b :: c :: rest)).length := by
      simp only [classifyAux, List.length_cons] at h
      omega
    simp only [classifyAux, List.get_cons_succ, List.get_cons_zero]
    rw [classifyAux_head_isTransfer (newLineColor a b) (b :: c :: rest) hL]
    have hcol : (newLineColor a b != "") = true :=
      bne_iff_ne.mpr (newLineColor_ne_empty a b)
    rw [hcol, Bool.and_true]
    exact bne_iff_ne
  | a :: b :: c :: rest, cur, i + 1, h => by
    have h' : i + 1 < (classifyAux (newLineColor a b) (b :: c :: rest)).length := by
      simp only [classifyAux, List.length_cons] at h
      omega
    have hrec := classifyAux_consecutive (b :: c :: rest) (newLineColor a b) i h'
    simp only [classifyAux, List.get_cons_succ]
    exact hrec

/-- C6: a segment evaluated by the classification loop is marked as a transfer
iff its assigned line differs from the current-line cursor and the cursor is
non-empty.  Since the cursor holds the previous segment's line (and lines are
never the empty string), this means: the first evaluated segment is never a
transfer, and a later segment is a transfer exactly when its line differs from
its predecessor's. -/
theorem classify_transfer_iff (names : List String) :
    (∀ h0 : 0 < (classifySegments names).length,
      ((classifySegments names).get ⟨0, h0⟩).isTransfer = false) ∧
    (∀ i : Nat, ∀ h : i + 1 < (classifySegments names).length,
      (((classifySegments names).get ⟨i + 1, h⟩).isTransfer = true ↔
        ((classifySegments names).get ⟨i + 1, h⟩).line ≠
        ((classifySegments names).get ⟨i, Nat.lt_of_succ_lt h⟩).line)) := by
  unfold classifySegments
  constructor
  · intro h0
    rw [classifyAux_head_isTransfer "" names h0]
    simp
  · intro i h
    exact classifyAux_consecutive names "" i h

theorem classify_transfer_iff_witness :
    (((classifySegments ["Patterson", "Lane", "Schottenstein", "West Campus"]).get
        ⟨0, by decide⟩).isTransfer = false) ∧
    (((classifySegments ["Patterson", "Lane", "Schottenstein", "West Campus"]).get
        ⟨1, by decide⟩).isTransfer = true ↔
      ((classifySegments ["Patterson", "Lane", "Schottenstein", "West Campus"]).get
        ⟨1, by decide⟩).line ≠
      ((classifySegments ["Patterson", "Lane", "Schottenstein", "West Campus"]).get
        ⟨0, by decide⟩).line) :=
  ⟨(classify_transfer_iff ["Patterson", "Lane", "Schottenstein", "West Campus"]).1
      (by decide),
   (classify_transfer_iff ["Patterson", "Lane", "Schottenstein", "West Campus"]).2 0
      (by decide)⟩

/- ---------------------------------------------------------------------
Symmetric line lookup (claim C5).
--------------------------------------------------------------------- -/

/-- All ways to split a character list around a dash character. -/
def dashSplits : List Char → List (List Char × List Char)
  | [] => []
  | c :: cs =>
    (if c = '-' then [(([] : List Char), cs)] else []) ++
    (dashSplits cs).map (fun pr => (c :: pr.1, pr.2))

theorem mem_dashSplits_of_eq :
    ∀ (l₁ l₂ L : List Char), l₁ ++ '-' :: l₂ = L → (l₁, l₂) ∈ dashSplits L
  | [], l₂, L, h => by
    rw [← h]
    simp [dashSplits]
  | c :: t, l₂, L, h => by
    rw [← h]
    simp only [dashSplits, List.cons_append]
    refine List.mem_append_right _ ?_
    exact List.mem_map.mpr ⟨(t, l₂), mem_dashSplits_of_eq t l₂ _ rfl, rfl⟩

theorem append_dash_data (a b : String) :
    (a ++ "-" ++ b).data = a.data ++ '-' :: b.data := by
  rw [String.data_append, String.data_append]
  simp

theorem str_ext {s t : String} (h : s.data = t.data) : s = t := by
  cases s
  cases t
  exact congrArg String.mk h

theorem split_pair_mem (a b s : String) (h : a ++ "-" ++ b = s) :
    (a.data, b.data) ∈ dashSplits s.data := by
  apply mem_dashSplits_of_eq
  rw [← append_dash_data a b, h]

theorem split_unique (a b t₁ t₂ : String)
    (h : (a.data, b.data) ∈ ([(t₁.data, t₂.data)] : List (List Char × List Char))) :
    a = t₁ ∧ b = t₂ := by
  have hh := List.mem_singleton.mp h
  have h1 : a.data = t₁.data := congrArg Prod.fst hh
  have h2 : b.data = t₂.data := congrArg Prod.snd hh
  exact ⟨str_ext h1, str_ext h2⟩

theorem blue_mem_cases (a b : String)
    (h : (a ++ "-" ++ b) ∈ blueConnections) :
    (a = "Lane" ∧ b = "Summit") ∨ (a = "Summit" ∧ b = "East Hudson") ∨
    (a = "East Hudson" ∧ b = "Old North") ∨ (a = "Old North" ∧ b = "Patterson") ∨
    (a = "Patterson" ∧ b = "Lane") := by
  simp only [blueConnections, List.mem_cons, List.not_mem_nil, or_false] at h
  rcases h with h | h | h | h | h
  · have hm := split_pair_mem a b _ h
    rw [show dashSplits ("Lane-Summit").data = [("Lane".data, "Summit".data)]
      from by decide] at hm
    exact Or.inl (split_unique a b "Lane" "Summit" hm)
  · have hm := split_pair_mem a b _ h
    rw [show dashSplits ("Summit-East Hudson").data = [("Summit".data, "East Hudson".data)]
      from by decide] at hm
    exact Or.inr (Or.inl (split_unique a b "Summit" "East Hudson" hm))
  · have hm := split_pair_mem a b _ h
    rw [show dashSplits ("East Hudson-Old North").data =
      [("East Hudson".data, "Old North".data)] from by decide] at hm
    exact Or.inr (Or.inr (Or.inl (split_unique a b "East Hudson" "Old North" hm)))
  · have hm := split_pair_mem a b _ h
    rw [show dashSplits ("Old North-Patterson").data =
      [("Old North".data, "Patterson".data)] from by decide] at hm
    exact Or.inr (Or.inr (Or.inr (Or.inl (split_unique a b "Old North" "Patterson" hm))))
  · have hm := split_pair_mem a b _ h
    rw [show dashSplits ("Patterson-Lane").data = [("Patterson".data, "Lane".data)]
      from by decide] at hm
    exact Or.inr (Or.inr (Or.inr (Or.inr (split_unique a b "Patterson" "Lane" hm))))

theorem orange_mem_cases (a b : String)
    (h : (a ++ "-" ++ b) ∈ orangeConnections) :
    (a = "Lane" ∧ b = "Schottenstein") ∨ (a = "Schottenstein" ∧ b = "West Campus") ∨
    (a = "West Campus" ∧ b = "Medical Center") ∨ (a = "Medical Center" ∧ b = "RPAC") := by
  simp only [orangeConnections, List.mem_cons, List.not_mem_nil, or_false] at h
  rcases h with h | h | h | h
  · have hm := split_pair_mem a b _ h
    rw [show dashSplits ("Lane-Schottenstein").data =
      [("Lane".data, "Schottenstein".data)] from by decide] at hm
    exact Or.inl (split_unique a b "Lane" "Schottenstein" hm)
  · have hm := split_pair_mem a b _ h
    rw [show dashSplits ("Schottenstein-West Campus").data =
      [("Schottenstein".data, "West Campus".data)] from by decide] at hm
    exact Or.inr (Or.inl (split_unique a b "Schottenstein" "West Campus" hm))
  · have hm := split_pair_mem a b _ h
    rw [show dashSplits ("West Campus-Medical Center").data =
      [("West Campus".data, "Medical Center".data)] from by decide] at hm
    exact Or.inr (Or.inr (Or.inl (split_unique a b "West Campus" "Medical Center" hm)))
  · have hm := split_pair_mem a b _ h
    rw [show dashSplits ("Medical Center-RPAC").data =
      [("Medical Center".data, "RPAC".data)] from by decide] at hm
    exact Or.inr (Or.inr (Or.inr (split_unique a b "Medical Center" "RPAC" hm)))

theorem yellow_mem_cases (a b : String)
    (h : (a ++ "-" ++ b) ∈ yellowConnections) :
    (a = "RPAC" ∧ b = "South Dorms") ∨ (a = "South Dorms" ∧ b = "South Neil") ∨
    (a = "South Neil" ∧ b = "King Ave") ∨ (a = "King Ave" ∧ b = "11th Ave") ∨
    (a = "11th Ave" ∧ b = "The Union") := by
  simp only [yellowConnections, List.mem_cons, List.not_mem_nil, or_false] at h
  rcases h with h | h | h | h | h
  · have hm := split_pair_mem a b _ h
    rw [show dashSplits ("RPAC-South Dorms").data =
      [("RPAC".data, "South Dorms".data)] from by decide] at hm
    exact Or.inl (split_unique a b "RPAC" "South Dorms" hm)
  · have hm := split_pair_mem a b _ h
    rw [show dashSplits ("South Dorms-South Neil").data =
      [("South Dorms".data, "South Neil".data)] from by decide] at hm
    exact Or.inr (Or.inl (split_unique a b "South Dorms" "South Neil" hm))
  · have hm := split_pair_mem a b _ h
    rw [show dashSplits ("South Neil-King Ave").data =
      [("South Neil".data, "King Ave".data)] from by decide] at hm
    exact Or.inr (Or.inr (Or.inl (split_unique a b "South Neil" "King Ave" hm)))
  · have hm := split_pair_mem a b _ h
    rw [show dashSplits ("King Ave-11th Ave").data =
      [("King Ave".data, "11th Ave".data)] from by decide] at hm
    exact Or.inr (Or.inr (Or.inr (Or.inl (split_unique a b "King Ave" "11th Ave" hm))))
  · have hm := split_pair_mem a b _ h
    rw [show dashSplits ("11th Ave-The Union").data =
      [("11th Ave".data, "The Union".data)] from by decide] at hm
    exact Or.inr (Or.inr (Or.inr (Or.inr (split_unique a b "11th Ave" "The Union" hm))))

theorem orange_not_blue (a b : String)
    (ho : (a ++ "-" ++ b) ∈ orangeConnections ∨ (b ++ "-" ++ a) ∈ orangeConnections) :
    ¬ ((a ++ "-" ++ b) ∈ blueConnections ∨ (b ++ "-" ++ a) ∈ blueConnections) := by
  rcases ho with ho | ho
  · rcases orange_mem_cases a b ho with ⟨rfl, rfl⟩ | ⟨rfl, rfl⟩ | ⟨rfl, rfl⟩ | ⟨rfl, rfl⟩
    · decide
    · decide
    · decide
    · decide
  · rcases orange_mem_cases b a ho with ⟨rfl, rfl⟩ | ⟨rfl, rfl⟩ | ⟨rfl, rfl⟩ | ⟨rfl, rfl⟩
    · decide
    · decide
    · decide
    · decide

theorem yellow_not_blue (a b : String)
    (hy : (a ++ "-" ++ b) ∈ yellowConnections ∨ (b ++ "-" ++ a) ∈ yellowConnections) :
    ¬ ((a ++ "-" ++ b) ∈ blueConnections ∨ (b ++ "-" ++ a) ∈ blueConnections) := by
  rcases hy with hy | hy
  · rcases yellow_mem_cases a b hy with
      ⟨rfl, rfl⟩ | ⟨rfl, rfl⟩ | ⟨rfl, rfl⟩ | ⟨rfl, rfl⟩ | ⟨rfl, rfl⟩
    · decide
    · decide
    · decide
    · decide
    · decide
  · rcases yellow_mem_cases b a hy with
      ⟨rfl, rfl⟩ | ⟨rfl, rfl⟩ | ⟨rfl, rfl⟩ | ⟨rfl, rfl⟩ | ⟨rfl, rfl⟩
    · decide
    · decide
    · decide
    · decide
    · decide

theorem yellow_not_orange (a b : String)
    (hy : (a ++ "-" ++ b) ∈ yellowConnections ∨ (b ++ "-" ++ a) ∈ yellowConnections) :
    ¬ ((a ++ "-" ++ b) ∈ orangeConnections ∨ (b ++ "-" ++ a) ∈ orangeConnections) := by
  rcases hy with hy | hy
  · rcases yellow_mem_cases a b hy with
      ⟨rfl, rfl⟩ | ⟨rfl, rfl⟩ | ⟨rfl, rfl⟩ | ⟨rfl, rfl⟩ | ⟨rfl, rfl⟩
    · decide
    · decide
    · decide
    · decide
    · decide
  · rcases yellow_mem_cases b a hy with
      ⟨rfl, rfl⟩ | ⟨rfl, rfl⟩ | ⟨rfl, rfl⟩ | ⟨rfl, rfl⟩ | ⟨rfl, rfl⟩
    · decide
    · decide
    · decide
    · decide
    · decide

/-- C5: classification is symmetric under connection-name ordering: the line
assigned to a consecutive name pair `(a, b)` equals the one assigned to
`(b, a)`, and for each named line the pair is assigned to it exactly when that
line's membership table contains `a-b` or `b-a` (the tables are disjoint as
unordered name pairs, so the first-match if-chain agrees with per-table
membership). -/
theorem classify_symmetric_lookup (a b : String) :
    newLineColor a b = newLineColor b a ∧
    (newLineColor a b = "blue" ↔
      ((a ++ "-" ++ b) ∈ blueConnections ∨ (b ++ "-" ++ a) ∈ blueConnections)) ∧
    (newLineColor a b = "orange" ↔
      ((a ++ "-" ++ b) ∈ orangeConnections ∨ (b ++ "-" ++ a) ∈ orangeConnections)) ∧
    (newLineColor a b = "yellow" ↔
      ((a ++ "-" ++ b) ∈ yellowConnections ∨ (b ++ "-" ++ a) ∈ yellowConnections)) := by
  by_cases hB : (a ++ "-" ++ b) ∈ blueConnections ∨ (b ++ "-" ++ a) ∈ blueConnections
  · have e1 : newLineColor a b = "blue" := by
      unfold newLineColor
      rw [if_pos hB]
    have e2 : newLineColor b a = "blue" := by
      unfold newLineColor
      rw [if_pos (Or.symm hB)]
    refine ⟨e1.trans e2.symm, ?_, ?_, ?_⟩
    · exact iff_of_true e1 hB
    · refine iff_of_false ?_ ?_
      · intro he
        rw [e1] at he
        exact absurd he (by decide)
      · intro ho
        exact orange_not_blue a b ho hB
    · refine iff_of_false ?_ ?_
      · intro he
        rw [e1] at he
        exact absurd he (by decide)
      · intro hy
        exact yellow_not_blue a b hy hB
  · have hB2 : ¬ ((b ++ "-" ++ a) ∈ blueConnections ∨ (a ++ "-" ++ b) ∈ blueConnections) :=
      fun hx => hB (Or.symm hx)
    by_cases hO : (a ++ "-" ++ b) ∈ orangeConnections ∨ (b ++ "-" ++ a) ∈ orangeConnections
    · have e1 : newLineColor a b = "orange" := by
        unfold newLineColor
        rw [if_neg hB, if_pos hO]
      have e2 : newLineColor b a = "orange" := by
        unfold newLineColor
        rw [if_neg hB2, if_pos (Or.symm hO)]
      refine ⟨e1.trans e2.symm, ?_, iff_of_true e1 hO, ?_⟩
      · refine iff_of_false ?_ hB
        intro he
        rw [e1] at he
        exact absurd he (by decide)
      · refine iff_of_false ?_ ?_
        · intro he
          rw [e1] at he
          exact absurd he (by decide)
        · intro hy
          exact yellow_not_orange a b hy hO
    · have hO2 : ¬ ((b ++ "-" ++ a) ∈ orangeConnections ∨
          (a ++ "-" ++ b) ∈ orangeConnections) := fun hx => hO (Or.symm hx)
      by_cases hY : (a ++ "-" ++ b) ∈ yellowConnections ∨
          (b ++ "-" ++ a) ∈ yellowConnections
      · have e1 : newLineColor a b = "yellow" := by
          unfold newLineColor
          rw [if_neg hB, if_neg hO, if_pos hY]
        have e2 : newLineColor b a = "yellow" := by
          unfold newLineColor
          rw [if_neg hB2, if_neg hO2, if_pos (Or.symm hY)]
        refine ⟨e1.trans e2.symm, ?_, ?_, iff_of_true e1 hY⟩
        · refine iff_of_false ?_ hB
          intro he
          rw [e1] at he
          exact absurd he (by decide)
        · refine iff_of_false ?_ hO
          intro he
          rw [e1] at he
          exact absurd he (by decide)
      · have hY2 : ¬ ((b ++ "-" ++ a) ∈ yellowConnections ∨
            (a ++ "-" ++ b) ∈ yellowConnections) := fun hx => hY (Or.symm hx)
        have e1 : newLineColor a b = "green" := by
          unfold newLineColor
          rw [if_neg hB, if_neg hO, if_neg hY]
        have e2 : newLineColor b a = "green" := by
          unfold newLineColor
          rw [if_neg hB2, if_neg hO2, if_neg hY2]
        refine ⟨e1.trans e2.symm, ?_, ?_, ?_⟩
        · refine iff_of_false ?_ hB
          intro he
          rw [e1] at he
          exact absurd he (by decide)
        · refine iff_of_false ?_ hO
          intro he
          rw [e1] at he
          exact absurd he (by decide)
        · refine iff_of_false ?_ hY
          intro he
          rw [e1] at he
          exact absurd he (by decide)

/- ---------------------------------------------------------------------
Deterministic tie-break (claim C8): the code refines the algorithm the
specification describes.
--------------------------------------------------------------------- -/

/-- Modelled from the spec: `PathFinder.findPath` of §4.2 with
`GraphStore.neighbors` of §4.1.  A FIFO frontier of (node, path-so-far) pairs
is seeded with `([startId], [startId])`; the visited set holds the
identifiers already enqueued — hence it starts as `{startId}` — so each node
is enqueued at most once; neighbours are visited in the node's stored
edge-list order (`neighbors(id)` is the empty sequence for an unknown id);
dequeuing the end node returns its path at once, and an exhausted frontier
returns empty.  The fuel argument plays the same bookkeeping role as in
`bfsRun`. -/
def specRun (nodes : List Node) (endId : Nat) :
    Nat → List (Nat × List Nat) → List Nat → Option (List Nat)
  | 0, _, _ => none
  | _ + 1, [], _ => some []
  | fuel + 1, (currentNodeId, path) :: rest, visited =>
    if currentNodeId = endId then some path
    else
      let qv := enqueueEdges path (edgesOf nodes currentNodeId) rest visited
      specRun nodes endId fuel qv.1 qv.2

/-- Modelled from the spec: `findPath(graph, startId, endId) -> Path | empty`. -/
def findRouteSpec (nodes : List Node) (startId endId : Nat) : List Nat :=
  (specRun nodes endId (fuelBound nodes) [(startId, [startId])] [startId]).getD []

theorem freshIds_filter (s : Nat) :
    ∀ (es Vc Vs : List Nat), (∀ x, x ∈ Vs ↔ (x ∈ Vc ∨ x = s)) →
    freshIds es Vs = (freshIds es Vc).filter (fun x => decide (x ≠ s))
  | [], _, _, _ => rfl
  | e :: es, Vc, Vs, hrel => by
    by_cases hes : e = s
    · subst hes
      have hsVs : e ∈ Vs := (hrel e).mpr (Or.inr rfl)
      by_cases hec : e ∈ Vc
      · simp only [freshIds, if_pos hsVs, if_pos hec]
        exact freshIds_filter e es Vc Vs hrel
      · have hrel' : ∀ x, x ∈ Vs ↔ (x ∈ (e :: Vc) ∨ x = e) := by
          intro x
          rw [hrel x]
          simp only [List.mem_cons]
          tauto
        simp only [freshIds, if_pos hsVs, if_neg hec, List.filter_cons]
        rw [freshIds_filter e es (e :: Vc) Vs hrel']
        simp
    · have hesv : e ∈ Vs ↔ e ∈ Vc := by
        rw [hrel e]
        simp [hes]
      by_cases hec : e ∈ Vc
      · simp only [freshIds, if_pos (hesv.mpr hec), if_pos hec]
        exact freshIds_filter s es Vc Vs hrel
      · have hesn : e ∉ Vs := fun h => hec (hesv.mp h)
        have hrel' : ∀ x, x ∈ (e :: Vs) ↔ (x ∈ (e :: Vc) ∨ x = s) := by
          intro x
          simp only [List.mem_cons, hrel x]
          tauto
        simp only [freshIds, if_neg hesn, if_neg hec, List.filter_cons]
        rw [freshIds_filter s es (e :: Vc) (e :: Vs) hrel']
        simp [hes]

theorem visAfter_rel (s : Nat) (es Vc Vs : List Nat)
    (hrel : ∀ x, x ∈ Vs ↔ (x ∈ Vc ∨ x = s)) :
    ∀ x, x ∈ visAfter es Vs ↔ (x ∈ visAfter es Vc ∨ x = s) := by
  intro x
  rw [mem_visAfter, mem_visAfter, hrel x, freshIds_filter s es Vc Vs hrel,
    List.mem_filter]
  by_cases hxs : x = s
  · simp [hxs]
  · simp [hxs]

theorem map_filter_entries (s : Nat) (g : Nat → List Nat) :
    ∀ (l : List Nat),
    ((l.filter (fun x => decide (x ≠ s))).map (fun b => (b, g b))) =
    ((l.map (fun b => (b, g b))).filter (fun en => decide (en.1 ≠ s)))
  | [] => rfl
  | a :: l => by
    simp only [List.filter_cons, List.map_cons]
    by_cases has : a = s
    · have h1 : (decide (a ≠ s)) = false := by simp [has]
      rw [h1]
      simp only [Bool.false_eq_true, if_false]
      exact map_filter_entries s g l
    · have h1 : (decide (a ≠ s)) = true := by simp [has]
      rw [h1]
      simp only [eq_self_iff_true, if_true, List.map_cons]
      rw [map_filter_entries s g l]

/-- Relation between a state of the code's loop (`Qc`, `Vc`) and a state of
the specified algorithm (`Qs`, `Vs`): the spec queue is the code queue minus
the re-enqueued copies of the start (which the spec's visited-from-the-start
seeding prevents), the spec visited set is the code one plus the start, the
start is fully expanded on the code side, and code queue nodes are the start
or visited. -/
structure SimInv (nodes : List Node) (s : Nat) (Qc Qs : List (Nat × List Nat))
    (Vc Vs : List Nat) : Prop where
  qrel : Qs = Qc.filter (fun en => decide (en.1 ≠ s))
  vrel : ∀ x, x ∈ Vs ↔ (x ∈ Vc ∨ x = s)
  sExp : ∀ y ∈ edgesOf nodes s, y ∈ Vc
  ends : ∀ en ∈ Qc, en.1 = s ∨ en.1 ∈ Vc
  vids : ∀ x ∈ Vc, x ∈ allIds nodes

theorem sim_run (nodes : List Node) (s e : Nat)
    (hs : (jsFind nodes s).isSome = true) (hcl : closedGraph nodes) (hne : e ≠ s) :
    ∀ (fc : Nat) (Qc : List (Nat × List Nat)) (Vc : List Nat)
      (Qs : List (Nat × List Nat)) (Vs : List Nat) (fs : Nat),
    SimInv nodes s Qc Qs Vc Vs →
    Qc.length + cntUnvisited nodes Vc + 1 ≤ fc →
    Qs.length + cntUnvisited nodes Vs + 1 ≤ fs →
    ∃ r, specRun nodes e fs Qs Vs = some r ∧
      (bfsRun nodes e fc Qc Vc).join = some r := by
  intro fc
  induction fc with
  | zero => intro Qc Vc Qs Vs fs _ hmc _; omega
  | succ fc ih =>
    intro Qc Vc Qs Vs fs sim hmc hms
    match Qc with
    | [] =>
      have hQs : Qs = [] := by rw [sim.qrel]; rfl
      obtain ⟨fs', rfl⟩ : ∃ g, fs = g + 1 := ⟨fs - 1, by omega⟩
      refine ⟨[], ?_, rfl⟩
      rw [hQs]
      rfl
    | (c, q) :: restc =>
      by_cases hcse : c = e
      · have hcs : c ≠ s := fun h => hne (hcse ▸ h)
        have hQs : Qs = (c, q) :: restc.filter (fun en => decide (en.1 ≠ s)) := by
          rw [sim.qrel]
          simp [List.filter_cons, hcs]
        obtain ⟨fs', rfl⟩ : ∃ g, fs = g + 1 := ⟨fs - 1, by omega⟩
        refine ⟨q, ?_, ?_⟩
        · rw [hQs]
          simp [specRun, hcse]
        · simp [bfsRun, hcse]
      · by_cases hcs : c = s
        · subst hcs
          obtain ⟨node, hfind⟩ := Option.isSome_iff_exists.mp hs
          have hedges : edgesOf nodes c = node.edges := by simp [edgesOf, hfind]
          have hsub : ∀ x ∈ node.edges, x ∈ Vc := by
            intro x hx
            apply sim.sExp
            rw [hedges]
            exact hx
          obtain ⟨hfr, hva⟩ := freshIds_nil_of_subset node.edges Vc hsub
          have hstep : bfsRun nodes e (fc + 1) ((c, q) :: restc) Vc =
              bfsRun nodes e fc restc Vc := by
            simp only [bfsRun, if_neg hcse, hfind, enqueueEdges_eq, hfr, hva,
              List.map_nil, List.append_nil]
          rw [hstep]
          refine ih restc Vc Qs Vs fs ?_ ?_ hms
          · refine ⟨?_, sim.vrel, sim.sExp,
              fun en hen => sim.ends en (List.mem_cons_of_mem _ hen), sim.vids⟩
            rw [sim.qrel]
            simp [List.filter_cons]
          · simp only [List.length_cons] at hmc
            omega
        · have hfindS : (jsFind nodes c).isSome = true := by
            rcases sim.ends (c, q) (List.mem_cons_self _ _) with h1 | h1
            · exact absurd h1 hcs
            · exact hcl c (sim.vids c h1)
          obtain ⟨node, hfind⟩ := Option.isSome_iff_exists.mp hfindS
          have hedges : edgesOf nodes c = node.edges := by simp [edgesOf, hfind]
          obtain ⟨fs', rfl⟩ : ∃ g, fs = g + 1 := ⟨fs - 1, by omega⟩
          have hQs : Qs = (c, q) :: restc.filter (fun en => decide (en.1 ≠ s)) := by
            rw [sim.qrel]
            simp [List.filter_cons, hcs]
          have hspec : specRun nodes e (fs' + 1) Qs Vs =
              specRun nodes e fs'
                (restc.filter (fun en => decide (en.1 ≠ s)) ++
                  (freshIds node.edges Vs).map (fun b => (b, q ++ [b])))
                (visAfter node.edges Vs) := by
            rw [hQs]
            simp only [specRun, if_neg hcse, enqueueEdges_eq, hedges]
          have hcode : bfsRun nodes e (fc + 1) ((c, q) :: restc) Vc =
              bfsRun nodes e fc
                (restc ++ (freshIds node.edges Vc).map (fun b => (b, q ++ [b])))
                (visAfter node.edges Vc) := by
            simp only [bfsRun, if_neg hcse, hfind, enqueueEdges_eq]
          rw [hspec, hcode]
          have hsubA : ∀ x ∈ node.edges, x ∈ allIds nodes :=
            edges_subset_allIds (jsFind_mem hfind)
          have hcntc := cnt_visAfter nodes node.edges Vc hsubA
          have hcnts := cnt_visAfter nodes node.edges Vs hsubA
          refine ih _ _ _ _ fs' ?_ ?_ ?_
          · constructor
            · rw [List.filter_append]
              rw [freshIds_filter s node.edges Vc Vs sim.vrel,
                map_filter_entries s (fun b => q ++ [b]) (freshIds node.edges Vc)]
            · exact visAfter_rel s node.edges Vc Vs sim.vrel
            · intro y hy
              exact (mem_visAfter node.edges Vc y).mpr (Or.inr (sim.sExp y hy))
            · intro en hen
              rcases List.mem_append.mp hen with hen | hen
              · rcases sim.ends en (List.mem_cons_of_mem _ hen) with h1 | h1
                · exact Or.inl h1
                · exact Or.inr ((mem_visAfter node.edges Vc en.1).mpr (Or.inr h1))
              · obtain ⟨b, hb, rfl⟩ := List.mem_map.mp hen
                exact Or.inr ((mem_visAfter node.edges Vc b).mpr (Or.inl hb))
            · intro x hx
              rcases (mem_visAfter node.edges Vc x).mp hx with hxF | hxv
              · exact hsubA x (freshIds_subset node.edges Vc x hxF)
              · exact sim.vids x hxv
          · simp only [List.length_append, List.length_map, List.length_cons] at hmc ⊢
            omega
          · have hlenf : (restc.filter (fun en => decide (en.1 ≠ s))).length ≤
                restc.length := List.length_filter_le _ _
            rw [hQs] at hms
            simp only [List.length_append, List.length_map, List.length_cons] at hms ⊢
            omega

/-- C8 counterexample: with the JS-falsy start identifier 0, the code's guard
returns the empty result even though two shortest paths of equal edge count
exist and the neighbour-order algorithm of the specification selects
`[0, 1, 3]` — the code does not return the path the claim prescribes. -/
theorem findRoute_spec_divergence_zero :
    findRoute [⟨0, "A", [1, 2]⟩, ⟨1, "B", [3]⟩, ⟨2, "C", [3]⟩, ⟨3, "D", []⟩] 0 3 =
      some [] ∧
    findRouteSpec [⟨0, "A", [1, 2]⟩, ⟨1, "B", [3]⟩, ⟨2, "C", [3]⟩, ⟨3, "D", []⟩] 0 3 =
      [0, 1, 3] :=
  ⟨by decide, by decide⟩

/-- C8 amended: for JS-truthy (nonzero) identifiers, `findRoute` is
deterministic and, when several shortest paths of equal edge count exist,
returns exactly the path selected by the algorithm the specification
prescribes: breadth-first search visiting each node's neighbours in the order
they appear in that node's stored edge list, with a FIFO frontier preserving
discovery order and a visited-on-enqueue set.  On closed graphs with a known
start the code computes precisely `findRouteSpec`, the spec-modelled
algorithm; the code's only bookkeeping divergence — the start never entering
the visited set, so neighbours may re-enqueue it once — never changes the
returned path.  When either identifier is the falsy number 0, the code's
initial guard returns empty while the specified algorithm still searches. -/
theorem findRoute_refines_findPath (nodes : List Node) (s e : Nat)
    (hs0 : s ≠ 0) (he0 : e ≠ 0)
    (hcl : closedGraph nodes) (hs : (jsFind nodes s).isSome = true) :
    findRoute nodes s e = some (findRouteSpec nodes s e) := by
  by_cases hse : s = e
  · subst hse
    rw [findRoute_self nodes s hs0]
    unfold findRouteSpec fuelBound
    rw [show (allIds nodes).toFinset.card + 2 = ((allIds nodes).toFinset.card + 1) + 1
      from rfl]
    simp [specRun]
  · have hne : e ≠ s := fun h => hse h.symm
    obtain ⟨node, hfind⟩ := Option.isSome_iff_exists.mp hs
    have hedges : edgesOf nodes s = node.edges := by simp [edgesOf, hfind]
    rw [findRoute_step1 nodes s e hs0 he0 hse hfind]
    unfold findRouteSpec fuelBound
    rw [show (allIds nodes).toFinset.card + 2 = ((allIds nodes).toFinset.card + 1) + 1
      from rfl]
    have hspec1 : specRun nodes e (((allIds nodes).toFinset.card + 1) + 1)
        [(s, [s])] [s] =
        specRun nodes e ((allIds nodes).toFinset.card + 1)
          ((freshIds node.edges [s]).map (fun b => (b, [s, b])))
          (visAfter node.edges [s]) := by
      simp only [specRun, if_neg hse, enqueueEdges_eq, hedges, List.nil_append,
        List.singleton_append]
    rw [hspec1]
    have hrel0 : ∀ x : Nat, x ∈ ([s] : List Nat) ↔ (x ∈ ([] : List Nat) ∨ x = s) := by
      intro x
      simp
    have hsim : SimInv nodes s
        ((freshIds node.edges []).map (fun b => (b, [s, b])))
        ((freshIds node.edges [s]).map (fun b => (b, [s, b])))
        (visAfter node.edges []) (visAfter node.edges [s]) := by
      constructor
      · rw [freshIds_filter s node.edges [] [s] hrel0]
        exact map_filter_entries s (fun b => [s, b]) (freshIds node.edges [])
      · exact visAfter_rel s node.edges [] [s] hrel0
      · intro y hy
        rw [hedges] at hy
        exact mem_visAfter_of_mem node.edges [] y hy
      · intro en hen
        obtain ⟨b, hb, rfl⟩ := List.mem_map.mp hen
        exact Or.inr ((mem_visAfter node.edges [] b).mpr (Or.inl hb))
      · intro x hx
        rcases (mem_visAfter node.edges [] x).mp hx with hxF | hxv
        · exact edges_subset_allIds (jsFind_mem hfind) x
            (freshIds_subset node.edges [] x hxF)
        · cases hxv
    have hsubA := edges_subset_allIds (jsFind_mem hfind)
    have hcnt0 : cntUnvisited nodes [] = (allIds nodes).toFinset.card := by
      simp [cntUnvisited]
    have hcntc := cnt_visAfter nodes node.edges [] hsubA
    have hcnts := cnt_visAfter nodes node.edges [s] hsubA
    have hcnts0 : cntUnvisited nodes [s] ≤ (allIds nodes).toFinset.card := by
      unfold cntUnvisited
      exact Finset.card_le_card Finset.sdiff_subset
    have hmc : ((freshIds node.edges []).map (fun b => (b, [s, b]))).length +
        cntUnvisited nodes (visAfter node.edges []) + 1 ≤
        (allIds nodes).toFinset.card + 1 := by
      simp only [List.length_map]
      omega
    have hms : ((freshIds node.edges [s]).map (fun b => (b, [s, b]))).length +
        cntUnvisited nodes (visAfter node.edges [s]) + 1 ≤
        (allIds nodes).toFinset.card + 1 := by
      simp only [List.length_map]
      omega
    obtain ⟨r, hr1, hr2⟩ := sim_run nodes s e hs hcl hne
      ((allIds nodes).toFinset.card + 1) _ _ _ _
      ((allIds nodes).toFinset.card + 1) hsim hmc hms
    rw [hr1, hr2]
    rfl

theorem findRoute_refines_findPath_witness :
    findRoute [⟨1, "A", [2, 3]⟩, ⟨2, "B", [4]⟩, ⟨3, "C", [4]⟩, ⟨4, "D", []⟩] 1 4 =
      some (findRouteSpec
        [⟨1, "A", [2, 3]⟩, ⟨2, "B", [4]⟩, ⟨3, "C", [4]⟩, ⟨4, "D", []⟩] 1 4) :=
  findRoute_refines_findPath
    [⟨1, "A", [2, 3]⟩, ⟨2, "B", [4]⟩, ⟨3, "C", [4]⟩, ⟨4, "D", []⟩] 1 4
    (by decide) (by decide) (by decide) (by decide)

/- In the diamond graph two shortest paths of length 2 exist (via node 2 and
via node 3); the stored-edge-order tie break picks whichever neighbour is
listed first, not the smaller identifier. -/
example : findRoute [⟨1, "A", [2, 3]⟩, ⟨2, "B", [4]⟩, ⟨3, "C", [4]⟩, ⟨4, "D", []⟩] 1 4 =
    some [1, 2, 4] := by decide

example : findRoute [⟨1, "A", [3, 2]⟩, ⟨2, "B", [4]⟩, ⟨3, "C", [4]⟩, ⟨4, "D", []⟩] 1 4 =
    some [1, 3, 4] := by decide
